import Mathlib

/-!
Verification of the natural-language specification of
`dbms/src/Storages/MergeTree/ReplicatedMergeTreeQueue.h` (the in-memory
replication queue of a MergeTree replica).

The repository snapshot contains only the class header: every method body
lives in a `.cpp` file that is not part of the snapshot.  Consequently the
operational definitions below are modelled from the specification document
(and from the doc comments of the header, which are part of the snapshot);
each such definition carries a doc comment starting with
`Modelled from the spec:` naming the missing source.
-/

namespace RMTQueue

/-- A part identifier, as encoded by MergeTree part names: a logical
partition, an inclusive range of block numbers, and the data version used
by the mutation machinery (`MergeTreePartInfo::getDataVersion`). -/
structure PartInfo where
  partition_id : String
  min_block : Int
  max_block : Int
  data_version : Int
deriving DecidableEq

/-- Range containment: `a.contains b` iff both parts are in the same
partition and `b`'s block range is inside `a`'s. -/
def PartInfo.contains (a b : PartInfo) : Bool :=
  (a.partition_id == b.partition_id)
    && decide (a.min_block ≤ b.min_block) && decide (b.max_block ≤ a.max_block)

/-- Range overlap: same partition and the two inclusive block ranges
intersect. -/
def PartInfo.overlaps (a b : PartInfo) : Bool :=
  (a.partition_id == b.partition_id)
    && decide (a.min_block ≤ b.max_block) && decide (b.min_block ≤ a.max_block)

/-! ## The virtual part set (`virtual_parts`, an `ActiveDataPartSet`)

The header documents `virtual_parts` as "what will be the set of active
parts after running the entire current queue", with special sentinel
elements added by `disableMergesInRange` to forbid merges over a range. -/

/-- One element of the virtual part set.  `merge_disabled` marks the
sentinel elements inserted by `disableMergesInRange` (a real projected
part carries `false`). -/
structure VPEntry where
  part : PartInfo
  merge_disabled : Bool
deriving DecidableEq

/-- The projected virtual part set. -/
abbrev VirtualPartSet := List VPEntry

/-- Modelled from the spec: `ActiveDataPartSet::add` (body not in the
snapshot; the header documents "adding new parts and performing merges"
and the spec says "entry's result is added, ranges it supersedes are
removed").  A new range already covered by an element of the set is not
added; otherwise it is added and every element it covers is removed. -/
def vpAdd (s : VirtualPartSet) (p : PartInfo) (sentinel : Bool) : VirtualPartSet :=
  if s.any (fun e => e.part.contains p) then s
  else ⟨p, sentinel⟩ :: s.filter (fun e => !(p.contains e.part))

/-- An editing operation on the queue, projected onto the virtual part
set. -/
inductive VPOp where
  | insertPart (p : PartInfo)
  | removePart (p : PartInfo)
  | disableMerges (p : PartInfo)
deriving DecidableEq

/-- The part argument of a virtual-part-set operation. -/
def VPOp.part : VPOp → PartInfo
  | .insertPart p => p
  | .removePart p => p
  | .disableMerges p => p

/-- Modelled from the spec: the effect of one queue operation on the
virtual part set (`insertUnlocked` adds the entry's result,
`disableMergesInRange` adds a sentinel element, removal drops the
matching range). -/
def vpApply (s : VirtualPartSet) : VPOp → VirtualPartSet
  | .insertPart p => vpAdd s p false
  | .removePart p => s.filter (fun e => !(decide (e.part = p)))
  | .disableMerges p => vpAdd s p true

/-- Run a whole sequence of operations starting from the empty set. -/
def vpRun (ops : List VPOp) : VirtualPartSet :=
  ops.foldl vpApply []

/-- A pair of virtual-part-set elements is acceptable when they do not
overlap, or one of them is a "merge disabled" sentinel. -/
def okPair (e₁ e₂ : VPEntry) : Bool :=
  !(e₁.part.overlaps e₂.part) || e₁.merge_disabled || e₂.merge_disabled

/-- The invariant claimed for the virtual part set: pairwise
non-overlapping except for sentinel markers. -/
def noBadOverlap : VirtualPartSet → Bool
  | [] => true
  | e :: rest => rest.all (okPair e) && noBadOverlap rest

/-- Two ranges nest when they are disjoint or one contains the other
(i.e. they do not properly straddle each other). -/
def nests (p q : PartInfo) : Bool :=
  !(p.overlaps q) || p.contains q || q.contains p

/-- `allNests p l` : `p` nests with every element of `l`. -/
def allNests (p : PartInfo) (l : List PartInfo) : Bool :=
  l.all (nests p)

/-- Pairwise nesting of a list of ranges. -/
def pairwiseNests : List PartInfo → Bool
  | [] => true
  | p :: rest => allNests p rest && pairwiseNests rest

/-- Strong form of the virtual-part-set invariant used for the induction:
no two elements (sentinel or not) overlap at all. -/
def NonOverlapping (s : VirtualPartSet) : Prop :=
  s.Pairwise (fun e₁ e₂ => e₁.part.overlaps e₂.part = false)

/-! ## Queue entries and queue state -/

/-- The kind of a queued action (`ReplicatedMergeTreeLogEntry::Type`). -/
inductive EntryKind where
  | GET_PART
  | MERGE_PARTS
  | MUTATE_PART
  | DROP_RANGE
  | CLEAR_COLUMN
  | REPLACE_RANGE
deriving DecidableEq

/-- One queued action (`ReplicatedMergeTreeLogEntry`), with the mutable
bookkeeping the queue attaches to it: the "currently executing" flag, the
last postponement reason and the saved failure message. -/
structure LogEntry where
  znode_name : String
  kind : EntryKind
  new_part_name : PartInfo
  source_parts : List PartInfo
  create_time : Int
  currently_executing : Bool
  postpone_reason : String
  exception_message : String
  num_tries : Nat
deriving DecidableEq

/-- A versioned transformation request
(`ReplicatedMergeTreeMutationEntry`): a block-number version, the set of
affected partitions and the ordered command list. -/
structure MutationEntry where
  block_version : Int
  partition_ids : List String
  commands : List String
deriving DecidableEq

/-- The replica-local queue state: the pending entries, the in-flight
tracker (`future_parts` and `current_inserts`), the projected virtual
part set and the mutation ledger. -/
structure QState where
  queue : List LogEntry
  future_parts : List PartInfo
  virtual_parts : VirtualPartSet
  current_inserts : List (String × List Int)
  mutations : List MutationEntry
deriving DecidableEq

/-- Modelled from the spec: `isNotCoveredByFuturePartsImpl` (body not in
the snapshot; the header documents "check that part isn't in currently
generating parts and isn't covered by them").  `none` means the part is
acceptable; `some reason` is the reject reason written by the source
through its out-parameter. -/
def isNotCoveredByFuturePartsImpl (fp : List PartInfo) (p : PartInfo) : Option String :=
  if fp.any (fun f => decide (f = p)) then
    some "Part is already executing"
  else if fp.any (fun f => f.contains p) then
    some "Part is covered by a part that is currently executing"
  else none

/-- Does the entry kind describe a merge or a mutation? -/
def entryIsMergeOrMutate : EntryKind → Bool
  | .MERGE_PARTS => true
  | .MUTATE_PART => true
  | _ => false

/-- Modelled from the spec: `shouldExecuteLogEntry` (body not in the
snapshot; the header documents "can I now try this action; if not, you
need to leave it in the queue and try another one").  `none` means the
entry is runnable; `some reason` is the postponement reason.  The checks
follow the spec's admission-predicate bullet list: result covered by a
future part, merges suspended, a source part being produced right now, a
source part not yet in the active set, and the clear-column conflict. -/
def shouldExecuteLogEntry (st : QState) (merges_suspended : Bool)
    (data_parts : List PartInfo) (e : LogEntry) : Option String :=
  match isNotCoveredByFuturePartsImpl st.future_parts e.new_part_name with
  | some r => some r
  | none =>
    if entryIsMergeOrMutate e.kind then
      if merges_suspended then some "Merges and mutations are suspended"
      else if e.source_parts.any (fun p => st.future_parts.any (fun f => decide (f = p))) then
        some "Source part is being produced by another action"
      else if e.source_parts.any (fun p => !(data_parts.any (fun d => decide (d = p)))) then
        some "Source part is not present in the active part set"
      else none
    else if e.kind = EntryKind.CLEAR_COLUMN then
      if st.queue.any (fun q => q.currently_executing
          && q.new_part_name.overlaps e.new_part_name) then
        some "A conflicting entry is currently executing"
      else none
    else none

/-- Modelled from the spec: the state change the `CurrentlyExecuting`
constructor performs on the selected entry (marks it executing and counts
the attempt). -/
def markExecuting (e : LogEntry) : LogEntry :=
  { e with currently_executing := true, num_tries := e.num_tries + 1 }

/-- Modelled from the spec: the reason write performed on a skipped entry
during a selection pass ("on failure, writes a human-readable
postponement reason for observability"). -/
def recordPostpone (st : QState) (ms : Bool) (dp : List PartInfo) (e : LogEntry) : LogEntry :=
  if e.currently_executing then e
  else
    match shouldExecuteLogEntry st ms dp e with
    | some r => { e with postpone_reason := r }
    | none => e

/-- The scan inside `selectEntryToProcess`: walk the queue in order, skip
entries that are already executing, postpone entries the admission
predicate rejects, and stop at the first runnable entry, marking it. -/
def selectFrom (st : QState) (ms : Bool) (dp : List PartInfo) :
    List LogEntry → Option (LogEntry × List LogEntry)
  | [] => none
  | e :: rest =>
    if e.currently_executing then
      (selectFrom st ms dp rest).map (fun pr => (pr.1, e :: pr.2))
    else
      match shouldExecuteLogEntry st ms dp e with
      | none => some (e, markExecuting e :: rest)
      | some r =>
        (selectFrom st ms dp rest).map
          (fun pr => (pr.1, { e with postpone_reason := r } :: pr.2))

/-- Modelled from the spec: `selectEntryToProcess` (body not in the
snapshot).  Returns the first runnable pending entry together with the
state in which the `CurrentlyExecuting` guard has registered the entry's
result part in `future_parts` and marked the entry executing. -/
def selectEntryToProcess (st : QState) (ms : Bool) (dp : List PartInfo) :
    Option (LogEntry × QState) :=
  (selectFrom st ms dp st.queue).map
    (fun pr =>
      (pr.1, { st with
        queue := pr.2,
        future_parts := pr.1.new_part_name :: st.future_parts }))

/-- Modelled from the spec: the `CurrentlyExecuting` destructor (body not
in the snapshot; the spec says "on destruction (any exit path) removes
the registration and clears the executing flag, unconditionally"). -/
def releaseGuard (st : QState) (e : LogEntry) : QState :=
  { st with
    future_parts := st.future_parts.eraseP (fun f => decide (f = e.new_part_name)),
    queue := st.queue.map (fun q =>
      if q.znode_name = e.znode_name then { q with currently_executing := false } else q) }

/-- The outcome reported by the external execution capability for a
dispatched entry. -/
inductive ExecOutcome where
  | success
  | failure (msg : String)
deriving DecidableEq

/-- Modelled from the spec: `processEntry` (body not in the snapshot; the
header documents "execute func; mark the queue element as running; if
there was an exception during processing, it saves it in entry; returns
true if there were no exceptions").  On success the entry is removed from
the queue; on failure the message is recorded on the entry and the entry
stays; on both paths the guard is released. -/
def processEntry (st : QState) (e : LogEntry) (out : ExecOutcome) : QState × Bool :=
  match out with
  | .success =>
    let st₁ := releaseGuard st e
    ({ st₁ with
        queue := st₁.queue.filter (fun q => !(decide (q.znode_name = e.znode_name))) },
      true)
  | .failure msg =>
    let st₁ := releaseGuard st e
    ({ st₁ with
        queue := st₁.queue.map (fun q =>
          if q.znode_name = e.znode_name then { q with exception_message := msg } else q) },
      false)

/-- Modelled from the spec: `CurrentlyExecuting::setActualPartName` (body
not in the snapshot; the spec says the guard "atomically swaps the
InFlightTracker registration" once the actual produced name is known). -/
def setActualPartName (st : QState) (id : String) (actual : PartInfo) : QState :=
  match st.queue.find? (fun q => decide (q.znode_name = id)) with
  | none => st
  | some old =>
    { st with
      queue := st.queue.map (fun q =>
        if q.znode_name = id then { q with new_part_name := actual } else q),
      future_parts := actual :: st.future_parts.eraseP (fun f => decide (f = old.new_part_name)) }

/-- Modelled from the spec: `addFuturePartIfNotCoveredByThem` (body not
in the snapshot; the header documents "check that part isn't in currently
generating parts and isn't covered by them and add it to future_parts").
Returns the success flag, the new state and the reject reason. -/
def addFuturePartIfNotCoveredByThem (st : QState) (p : PartInfo) (e : LogEntry) :
    Bool × QState × String :=
  match isNotCoveredByFuturePartsImpl st.future_parts p with
  | some reason => (false, st, reason)
  | none => (true, setActualPartName st e.znode_name p, "")

/-- Entry kinds whose execution produces a part. -/
def producesPart : EntryKind → Bool
  | .GET_PART => true
  | .MERGE_PARTS => true
  | .MUTATE_PART => true
  | _ => false

/-- Is the entry a part-producing action whose result is covered by the
given range? -/
def coveredProducer (range : PartInfo) (e : LogEntry) : Bool :=
  producesPart e.kind && range.contains e.new_part_name

/-- Modelled from the spec: `removePartProducingOpsInRange` (body not in
the snapshot; the header documents "remove the actions with the parts
covered by part_name and wait for the completion of their execution if
they are now being executed").  Returns the state with the covered
entries removed, together with the list of entries that were executing at
call time and hence are waited on. -/
def removePartProducingOpsInRange (st : QState) (range : PartInfo) :
    QState × List LogEntry :=
  ({ st with queue := st.queue.filter (fun e => !(coveredProducer range e)) },
   st.queue.filter (fun e => coveredProducer range e && e.currently_executing))

/-- Modelled from the spec: waiting for the removed executing entries to
finish; when each finishes, its guard's destructor removes its
registration from `future_parts`. -/
def awaitExecutingRemoved (st : QState) (waited : List LogEntry) : QState :=
  waited.foldl
    (fun s e =>
      { s with future_parts := s.future_parts.eraseP (fun f => decide (f = e.new_part_name)) })
    st

/-- Modelled from the spec: `insert` / `insertUnlocked` (bodies not in
the snapshot; the spec describes an "idempotent append" that also adds
the entry's result to the virtual part set).  An entry whose identity is
already present leaves the state unchanged; a fresh entry is appended in
pending state. -/
def insertEntry (st : QState) (e : LogEntry) : QState :=
  if st.queue.any (fun q => decide (q.znode_name = e.znode_name)) then st
  else
    { st with
      queue := st.queue ++ [{ e with currently_executing := false }],
      virtual_parts := vpAdd st.virtual_parts e.new_part_name false }

/-- The synchronizer state: the queue state plus the persisted log
cursor (`log_pointer`). -/
structure SyncState where
  qstate : QState
  log_pointer : Nat
deriving DecidableEq

/-- Modelled from the spec: `pullLogsToQueue` (body not in the snapshot;
the header documents "copy the new entries from the shared log to the
queue of this replica; set the log_pointer to the appropriate value;
returns true if new entries have been").  The external log is a list of
entries in sequence order. -/
def pullLogsToQueue (ss : SyncState) (log : List LogEntry) : SyncState × Bool :=
  let newEntries := log.drop ss.log_pointer
  (⟨newEntries.foldl insertEntry ss.qstate, ss.log_pointer + newEntries.length⟩,
   !newEntries.isEmpty)

/-! ## The mutation ledger -/

/-- The ledger entries affecting one partition, in ledger order
(the `mutations_by_partition` index). -/
def mutationsForPartition (st : QState) (pid : String) : List MutationEntry :=
  st.mutations.filter (fun m => m.partition_ids.any (fun q => decide (q = pid)))

/-- Modelled from the spec: `getCurrentMutationVersion` (body not in the
snapshot; the header documents "return the version of the last mutation
that we don't need to apply to the part; if there is no such mutation,
return -1").  The largest ledger version for the part's partition that
does not exceed the part's data version; `currentVersionStep` is the
running-maximum step of the walk over the ledger. -/
def currentVersionStep (dv : Int) (acc : Int) (m : MutationEntry) : Int :=
  if m.block_version ≤ dv ∧ acc < m.block_version then m.block_version else acc

/-- The current mutation version of the part: see `currentVersionStep`. -/
def getCurrentMutationVersion (st : QState) (p : PartInfo) : Int :=
  (mutationsForPartition st p.partition_id).foldl (currentVersionStep p.data_version) (-1)

/-- Modelled from the spec: `canMutatePart` (body not in the snapshot;
the spec says "looks up the ledger for the smallest pending version ≥
current for that part's partition" and reports "already current" when
nothing is pending).  `some w` is the desired mutation version;
`desiredVersionStep` is the running-minimum step of the walk over the
pending ledger versions. -/
def desiredVersionStep (cur : Int) (acc : Option Int) (m : MutationEntry) : Option Int :=
  if cur < m.block_version then
    match acc with
    | none => some m.block_version
    | some w => if m.block_version < w then some m.block_version else some w
  else acc

/-- The smallest pending ledger version: see `desiredVersionStep`. -/
def canMutatePart (st : QState) (p : PartInfo) : Option Int :=
  (mutationsForPartition st p.partition_id).foldl
    (desiredVersionStep (getCurrentMutationVersion st p)) none

/-- Modelled from the spec: `getMutationCommands` (body not in the
snapshot; the spec says "returns that version and the ordered commands
from current version (exclusive) to desired version (inclusive)").
Mirrors the ledger walk: skip the versions the part already has, then
collect commands up to the desired version. -/
def getMutationCommands (st : QState) (p : PartInfo) (desired_mutation_version : Int) :
    List String :=
  ((((mutationsForPartition st p.partition_id).dropWhile
      (fun m => decide (m.block_version ≤ p.data_version))).takeWhile
      (fun m => decide (m.block_version ≤ desired_mutation_version))).map
    (fun m => m.commands)).flatten

/-! ## Merge admission -/

/-- The committing insert block numbers recorded for one partition. -/
def blocksForPartition (ci : List (String × List Int)) (pid : String) : List Int :=
  ((ci.filter (fun pr => decide (pr.1 = pid))).map Prod.snd).flatten

/-- The result range of a merge of `left` and `right`. -/
def mergeRange (left right : PartInfo) : PartInfo :=
  ⟨left.partition_id, left.min_block, right.max_block, left.data_version⟩

/-- Modelled from the spec: `canMergeParts` (body not in the snapshot;
the header documents "true if the parts are of the same mutation version,
there is no merge or mutation already selected for these parts and there
are no virtual parts or unfinished inserts between them").  `none` means
the merge is allowed; `some reason` is the reject reason written through
the out-parameter. -/
def canMergeParts (st : QState) (left right : PartInfo) : Option String :=
  if st.queue.any (fun e => entryIsMergeOrMutate e.kind
      && e.new_part_name.overlaps (mergeRange left right)) then
    some "There is a merge or mutation already assigned over this range"
  else if getCurrentMutationVersion st left ≠ getCurrentMutationVersion st right then
    some "Parts have different mutation versions"
  else if (blocksForPartition st.current_inserts left.partition_id).any
      (fun b => decide (left.max_block < b ∧ b < right.min_block)) then
    some "There is an unfinished insert between the parts"
  else if st.virtual_parts.any (fun e =>
      decide (e.part.partition_id = left.partition_id)
      && decide (left.max_block < e.part.min_block)
      && decide (e.part.max_block < right.min_block)) then
    some "There is a virtual part between the parts"
  else none

/-! ## The execution-state machine (for the `future_parts` invariant) -/

/-- One transition of the queue, as driven by the background threads:
appending a pulled entry, selecting an entry for execution, completing an
execution (with either outcome), updating the actual produced part name
during a fetch, and removing a covered range. -/
inductive QStep (ms : Bool) (dp : List PartInfo) : QState → QState → Prop where
  | insert (st : QState) (e : LogEntry) : QStep ms dp st (insertEntry st e)
  | select (st : QState) (e : LogEntry) (st' : QState)
      (h : selectEntryToProcess st ms dp = some (e, st')) : QStep ms dp st st'
  | process (st : QState) (e : LogEntry) (out : ExecOutcome)
      (he : e ∈ st.queue) (hex : e.currently_executing = true) :
      QStep ms dp st (processEntry st e out).1
  | setActual (st : QState) (e : LogEntry) (actual : PartInfo)
      (he : e ∈ st.queue) (hex : e.currently_executing = true)
      (hfresh : actual ∉ st.future_parts) :
      QStep ms dp st (setActualPartName st e.znode_name actual)
  | removeRange (st : QState) (range : PartInfo) :
      QStep ms dp st
        (awaitExecutingRemoved (removePartProducingOpsInRange st range).1
          (removePartProducingOpsInRange st range).2)

/-- The state `initialize` produces: empty queue, empty in-flight
tracker, the virtual part set seeded from the existing data parts
(`initVirtualParts`), and externally loaded inserts and mutations. -/
def initialState (parts : List PartInfo) (ci : List (String × List Int))
    (muts : List MutationEntry) : QState :=
  ⟨[], [], parts.foldl (fun s q => vpAdd s q false) [], ci, muts⟩

/-- The states reachable from an initial state through queue
transitions. -/
inductive Reachable (ms : Bool) (dp : List PartInfo) : QState → Prop where
  | init (parts : List PartInfo) (ci : List (String × List Int))
      (muts : List MutationEntry) : Reachable ms dp (initialState parts ci muts)
  | step {st st' : QState} : Reachable ms dp st → QStep ms dp st st' → Reachable ms dp st'

/-- No duplicates in a list of part identifiers. -/
def nodupPartsB : List PartInfo → Bool
  | [] => true
  | p :: rest => !(rest.any (fun q => decide (q = p))) && nodupPartsB rest

/-- At most one entry of the list is executing for any produced part
name. -/
def atMostOneExecutingPerPart : List LogEntry → Bool
  | [] => true
  | e :: rest =>
    (!e.currently_executing
      || rest.all (fun q =>
          !q.currently_executing || !(decide (q.new_part_name = e.new_part_name))))
    && atMostOneExecutingPerPart rest

/-- The inductive invariant for the execution machine: executing entries
have pairwise distinct result names, `future_parts` (a `std::set` in the
source) has no duplicates, each executing entry is registered, and entry
identities are unique in the queue. -/
def ExecInv (st : QState) : Prop :=
  st.queue.Pairwise (fun e₁ e₂ =>
    e₁.currently_executing = true → e₂.currently_executing = true →
      e₁.new_part_name ≠ e₂.new_part_name)
  ∧ st.future_parts.Nodup
  ∧ (∀ e ∈ st.queue, e.currently_executing = true → e.new_part_name ∈ st.future_parts)
  ∧ (st.queue.map LogEntry.znode_name).Nodup

/-! ## The sequence-number encoding (`padIndex`) -/

/-- The decimal digit character for `d % 10`. -/
def digitChar (d : Nat) : Char := Char.ofNat (48 + d % 10)

/-- Fuel-driven most-significant-first decimal digits. -/
def natDigitsAux : Nat → Nat → List Char
  | 0, _ => []
  | fuel + 1, n =>
    if n < 10 then [digitChar n]
    else natDigitsAux fuel (n / 10) ++ [digitChar (n % 10)]

/-- The decimal digits of `n`, most significant first. -/
def natDigits (n : Nat) : List Char := natDigitsAux (n + 1) n

/-- Modelled from the spec: `padIndex` (body not in the snapshot; the
header documents "convert a number to a string in the format of the
suffixes of auto-incremental nodes in ZooKeeper; negative numbers are
also supported" and the spec describes a zero-padded, fixed-width
signed-magnitude decimal encoding).  The decimal rendering (with a minus
sign for negatives) is left-padded with zeros to width 10. -/
def padIndex (index : Int) : String :=
  let body : List Char :=
    if index < 0 then '-' :: natDigits (-index).toNat
    else natDigits index.toNat
  String.mk (List.replicate (10 - body.length) '0' ++ body)

/-- The numeric value of a most-significant-first digit string. -/
def digitsValue : List Char → Nat
  | [] => 0
  | c :: cs => (c.toNat - 48) * 10 ^ cs.length + digitsValue cs

/-- Is the character a decimal digit? -/
def isDigit10 (c : Char) : Bool :=
  decide (48 ≤ c.toNat) && decide (c.toNat ≤ 57)

/-! # Theorems -/

/-! ## General list helpers -/

theorem mem_eraseP_of_not {α : Type} {l : List α} {x : α} {p : α → Bool}
    (hx : x ∈ l) (hpx : p x = false) : x ∈ l.eraseP p := by
  induction l with
  | nil => cases hx
  | cons a l ih =>
    rw [List.eraseP_cons]
    cases hpa : p a with
    | true =>
      simp only [cond_true]
      rcases List.mem_cons.mp hx with rfl | hx2
      · rw [hpa] at hpx; cases hpx
      · exact hx2
    | false =>
      simp only [cond_false]
      rcases List.mem_cons.mp hx with rfl | hx2
      · exact List.mem_cons_self _ _
      · exact List.mem_cons_of_mem _ (ih hx2)

theorem not_mem_eraseP_of_countP_le_one {α : Type} {l : List α} {p : α → Bool}
    (h : l.countP p ≤ 1) : ∀ x, p x = true → x ∉ l.eraseP p := by
  induction l with
  | nil => intro x _ hx; cases hx
  | cons a l ih =>
    intro x hpx hx
    rw [List.eraseP_cons] at hx
    cases hpa : p a with
    | true =>
      rw [hpa] at hx
      simp only [cond_true] at hx
      rw [List.countP_cons, hpa] at h
      have h1 : l.countP p + 1 ≤ 1 := by simpa using h
      have hz : l.countP p = 0 := by omega
      exact (List.countP_eq_zero.mp hz x hx) hpx
    | false =>
      rw [hpa] at hx
      simp only [cond_false] at hx
      rcases List.mem_cons.mp hx with rfl | hx2
      · rw [hpa] at hpx; cases hpx
      · rw [List.countP_cons, hpa] at h
        have h1 : l.countP p ≤ 1 := by simpa using h
        exact ih h1 x hpx hx2

theorem PartInfo.overlaps_comm (a b : PartInfo) : a.overlaps b = b.overlaps a := by
  simp only [PartInfo.overlaps]
  rw [Bool.eq_iff_iff]
  simp only [Bool.and_eq_true, beq_iff_eq, decide_eq_true_eq]
  constructor
  · rintro ⟨⟨h, h1⟩, h2⟩; exact ⟨⟨h.symm, h2⟩, h1⟩
  · rintro ⟨⟨h, h1⟩, h2⟩; exact ⟨⟨h.symm, h2⟩, h1⟩

theorem noBadOverlap_of_nonOverlapping {s : VirtualPartSet} (h : NonOverlapping s) :
    noBadOverlap s = true := by
  induction s with
  | nil => rfl
  | cons e rest ih =>
    obtain ⟨h1, h2⟩ := List.pairwise_cons.mp h
    simp only [noBadOverlap, Bool.and_eq_true, List.all_eq_true]
    refine ⟨fun e₂ he₂ => ?_, ih h2⟩
    simp only [okPair, Bool.or_eq_true, Bool.not_eq_true']
    exact Or.inl (Or.inl (h1 e₂ he₂))

theorem mem_vpAdd {s : VirtualPartSet} {p : PartInfo} {b : Bool} {e : VPEntry}
    (h : e ∈ vpAdd s p b) : e.part = p ∨ e ∈ s := by
  unfold vpAdd at h
  split at h
  · exact Or.inr h
  · rcases List.mem_cons.mp h with rfl | h
    · exact Or.inl rfl
    · exact Or.inr (List.mem_of_mem_filter h)

theorem vpAdd_pairwise {s : VirtualPartSet} {p : PartInfo} {b : Bool}
    (hs : NonOverlapping s) (hn : ∀ e ∈ s, nests e.part p = true) :
    NonOverlapping (vpAdd s p b) := by
  unfold vpAdd
  split
  · exact hs
  · rename_i hcov
    have hnc : ∀ e ∈ s, e.part.contains p = false := by
      intro e he
      by_contra hx
      exact hcov (List.any_eq_true.mpr ⟨e, he, by simpa using hx⟩)
    refine List.pairwise_cons.mpr ⟨?_, hs.sublist (List.filter_sublist s)⟩
    intro e he
    have hes : e ∈ s := List.mem_of_mem_filter he
    have hkeep : p.contains e.part = false := by
      simpa using List.of_mem_filter he
    have hne := hn e hes
    simp only [nests, Bool.or_eq_true, Bool.not_eq_true'] at hne
    rcases hne with (h | h) | h
    · show p.overlaps e.part = false
      rw [PartInfo.overlaps_comm]; exact h
    · rw [hnc e hes] at h; exact absurd h (by simp)
    · rw [hkeep] at h; exact absurd h (by simp)

theorem foldl_vpApply_nonOverlapping :
    ∀ (ops : List VPOp) (s : VirtualPartSet),
      NonOverlapping s →
      (∀ e ∈ s, ∀ op ∈ ops, nests e.part op.part = true) →
      pairwiseNests (ops.map VPOp.part) = true →
      NonOverlapping (ops.foldl vpApply s)
  | [], _, hs, _, _ => hs
  | op :: rest, s, hs, hco, hops => by
    simp only [List.foldl_cons]
    simp only [List.map_cons, pairwiseNests, Bool.and_eq_true, allNests,
      List.all_eq_true] at hops
    obtain ⟨hop, hrest⟩ := hops
    apply foldl_vpApply_nonOverlapping rest (vpApply s op)
    · cases op with
      | insertPart p =>
        exact vpAdd_pairwise hs (fun e he => hco e he _ (List.mem_cons_self _ _))
      | removePart p => exact hs.sublist (List.filter_sublist s)
      | disableMerges p =>
        exact vpAdd_pairwise hs (fun e he => hco e he _ (List.mem_cons_self _ _))
    · intro e he op₂ hop₂
      have hmem : e.part = op.part ∨ e ∈ s := by
        cases op with
        | insertPart p => exact mem_vpAdd he
        | removePart p => exact Or.inr (List.mem_of_mem_filter he)
        | disableMerges p => exact mem_vpAdd he
      rcases hmem with h | h
      · rw [h]
        exact hop _ (List.mem_map_of_mem VPOp.part hop₂)
      · exact hco e h op₂ (List.mem_cons_of_mem _ hop₂)
    · exact hrest

/-- C1, counterexample: the claim as stated is false.  After the
operation sequence [insert part p_0_5, insert part p_3_8] — two inserts
whose ranges properly straddle each other — the projected virtual part
set contains two overlapping ranges, neither of which is a "merge
disabled" sentinel. -/
theorem virtual_parts_overlap_counterexample :
    noBadOverlap (vpRun
      [VPOp.insertPart ⟨"p", 0, 5, 0⟩, VPOp.insertPart ⟨"p", 3, 8, 3⟩]) = false := by
  decide

/-- C1 (amended): for every sequence of insert and removal operations
whose part-range arguments pairwise nest (each pair of argument ranges is
disjoint or one contains the other — which is how MergeTree block ranges
always relate), the projected virtual part set never contains two
overlapping part ranges, except for explicit "merge disabled" sentinel
markers added by disableMergesInRange. -/
theorem virtual_parts_no_overlap (ops : List VPOp)
    (h : pairwiseNests (ops.map VPOp.part) = true) :
    noBadOverlap (vpRun ops) = true :=
  noBadOverlap_of_nonOverlapping
    (foldl_vpApply_nonOverlapping ops [] List.Pairwise.nil (by intro e he; cases he) h)

/-- C1 witness: a concrete mixed sequence (insert, disable merges over a
covering range, insert, remove) with pairwise nested arguments satisfies
the invariant. -/
theorem virtual_parts_no_overlap_witness :
    pairwiseNests ([VPOp.insertPart ⟨"p", 0, 1, 0⟩, VPOp.disableMerges ⟨"p", 0, 20, 0⟩,
        VPOp.insertPart ⟨"q", 2, 3, 2⟩, VPOp.removePart ⟨"p", 0, 1, 0⟩].map VPOp.part) = true
      ∧ noBadOverlap (vpRun [VPOp.insertPart ⟨"p", 0, 1, 0⟩, VPOp.disableMerges ⟨"p", 0, 20, 0⟩,
        VPOp.insertPart ⟨"q", 2, 3, 2⟩, VPOp.removePart ⟨"p", 0, 1, 0⟩]) = true :=
  ⟨by decide, virtual_parts_no_overlap _ (by decide)⟩

/-- C6: after `removePartProducingOpsInRange st range` (i) no entry left
in the queue is a part-producing action whose result range is covered by
`range`, (ii) every covered entry that was executing at call time is in
the returned wait list (the caller blocks on it; nothing is abandoned
mid-flight), and (iii) entries not covered by `range` are all still
there. -/
theorem removePartProducingOpsInRange_spec (st : QState) (range : PartInfo) :
    (∀ q ∈ (removePartProducingOpsInRange st range).1.queue,
        producesPart q.kind = true → range.contains q.new_part_name = false)
    ∧ (∀ q ∈ st.queue, coveredProducer range q = true → q.currently_executing = true →
        q ∈ (removePartProducingOpsInRange st range).2)
    ∧ (∀ q ∈ st.queue, coveredProducer range q = false →
        q ∈ (removePartProducingOpsInRange st range).1.queue) := by
  refine ⟨?_, ?_, ?_⟩
  · intro q hq hprod
    have hmem := List.mem_filter.mp hq
    have hcov : coveredProducer range q = false := by
      simpa using hmem.2
    simpa [coveredProducer, hprod] using hcov
  · intro q hq hcov hex
    exact List.mem_filter.mpr ⟨hq, by simp [hcov, hex]⟩
  · intro q hq hcov
    exact List.mem_filter.mpr ⟨hq, by simp [hcov]⟩

/-- C6 witness: in a concrete queue with one covered executing merge, one
covered pending fetch and one unrelated entry, the covered executing
entry is waited on, and the survivor is not covered. -/
theorem removePartProducingOpsInRange_witness :
    (⟨"q-1", EntryKind.MERGE_PARTS, ⟨"p", 0, 5, 0⟩, [], 0, true, "", "", 0⟩ : LogEntry) ∈
      (removePartProducingOpsInRange
        ⟨[⟨"q-1", EntryKind.MERGE_PARTS, ⟨"p", 0, 5, 0⟩, [], 0, true, "", "", 0⟩,
          ⟨"q-2", EntryKind.GET_PART, ⟨"p", 6, 6, 6⟩, [], 0, false, "", "", 0⟩,
          ⟨"q-3", EntryKind.GET_PART, ⟨"r", 0, 0, 0⟩, [], 0, false, "", "", 0⟩],
         [], [], [], []⟩ ⟨"p", 0, 10, 0⟩).2
    ∧ PartInfo.contains ⟨"p", 0, 10, 0⟩ ⟨"r", 0, 0, 0⟩ = false := by
  refine ⟨?_, ?_⟩
  · exact (removePartProducingOpsInRange_spec _ _).2.1 _ (by decide) (by decide) (by decide)
  · exact (removePartProducingOpsInRange_spec
      ⟨[⟨"q-1", EntryKind.MERGE_PARTS, ⟨"p", 0, 5, 0⟩, [], 0, true, "", "", 0⟩,
        ⟨"q-2", EntryKind.GET_PART, ⟨"p", 6, 6, 6⟩, [], 0, false, "", "", 0⟩,
        ⟨"q-3", EntryKind.GET_PART, ⟨"r", 0, 0, 0⟩, [], 0, false, "", "", 0⟩],
       [], [], [], []⟩ ⟨"p", 0, 10, 0⟩).1
      ⟨"q-3", EntryKind.GET_PART, ⟨"r", 0, 0, 0⟩, [], 0, false, "", "", 0⟩
      (by decide) (by decide)

theorem isNotCovered_none_iff (fp : List PartInfo) (p : PartInfo) :
    isNotCoveredByFuturePartsImpl fp p = none
      ↔ (p ∉ fp ∧ ∀ f ∈ fp, f.contains p = false) := by
  constructor
  · intro h
    unfold isNotCoveredByFuturePartsImpl at h
    split at h
    · cases h
    · split at h
      · cases h
      · rename_i h1 h2
        refine ⟨fun hp => h1 (List.any_eq_true.mpr ⟨p, hp, by simp⟩), fun f hf => ?_⟩
        by_contra hcon
        exact h2 (List.any_eq_true.mpr ⟨f, hf, by simpa using hcon⟩)
  · rintro ⟨h1, h2⟩
    have hc1 : ¬ (fp.any (fun f => decide (f = p)) = true) := by
      intro hany
      obtain ⟨f, hf, hc⟩ := List.any_eq_true.mp hany
      exact h1 (of_decide_eq_true hc ▸ hf)
    have hc2 : ¬ (fp.any (fun f => f.contains p) = true) := by
      intro hany
      obtain ⟨f, hf, hc⟩ := List.any_eq_true.mp hany
      rw [h2 f hf] at hc
      cases hc
    unfold isNotCoveredByFuturePartsImpl
    rw [if_neg hc1, if_neg hc2]

theorem isNotCovered_some_ne_empty {fp : List PartInfo} {p : PartInfo} {r : String}
    (h : isNotCoveredByFuturePartsImpl fp p = some r) : r ≠ "" := by
  unfold isNotCoveredByFuturePartsImpl at h
  split at h
  · cases h; decide
  · split at h
    · cases h; decide
    · cases h

/-- C10: `addFuturePartIfNotCoveredByThem` rejects exactly when the part
name is already a future part or is covered by one; a rejection returns
false, writes a nonempty reject reason and leaves the whole state (in
particular `future_parts`) unchanged; a success returns true and
registers the name among the future parts. -/
theorem addFuturePart_spec (st : QState) (p : PartInfo) (e : LogEntry)
    (he : ∃ q ∈ st.queue, q.znode_name = e.znode_name) :
    ((addFuturePartIfNotCoveredByThem st p e).1 = false
        ↔ (p ∈ st.future_parts ∨ ∃ f ∈ st.future_parts, f.contains p = true))
    ∧ ((addFuturePartIfNotCoveredByThem st p e).1 = false →
        (addFuturePartIfNotCoveredByThem st p e).2.1 = st
          ∧ (addFuturePartIfNotCoveredByThem st p e).2.2 ≠ "")
    ∧ ((addFuturePartIfNotCoveredByThem st p e).1 = true →
        p ∈ (addFuturePartIfNotCoveredByThem st p e).2.1.future_parts) := by
  cases hni : isNotCoveredByFuturePartsImpl st.future_parts p with
  | some r =>
    have hres : addFuturePartIfNotCoveredByThem st p e = (false, st, r) := by
      unfold addFuturePartIfNotCoveredByThem
      rw [hni]
    have hcov : p ∈ st.future_parts ∨ ∃ f ∈ st.future_parts, f.contains p = true := by
      by_contra hcon
      push_neg at hcon
      have : isNotCoveredByFuturePartsImpl st.future_parts p = none := by
        rw [isNotCovered_none_iff]
        refine ⟨hcon.1, fun f hf => ?_⟩
        have := hcon.2 f hf
        simpa using this
      rw [hni] at this
      cases this
    rw [hres]
    exact ⟨by simpa using hcov,
      fun _ => ⟨rfl, isNotCovered_some_ne_empty hni⟩,
      fun hh => Bool.noConfusion hh⟩
  | none =>
    obtain ⟨q, hqmem, hqzn⟩ := he
    have hfind : (st.queue.find? (fun x => decide (x.znode_name = e.znode_name))).isSome := by
      rw [List.find?_isSome]
      exact ⟨q, hqmem, by simpa using hqzn⟩
    obtain ⟨old, hold⟩ := Option.isSome_iff_exists.mp hfind
    have hres : addFuturePartIfNotCoveredByThem st p e =
        (true, setActualPartName st e.znode_name p, "") := by
      unfold addFuturePartIfNotCoveredByThem
      rw [hni]
    have hnotcov := (isNotCovered_none_iff _ _).mp hni
    rw [hres]
    refine ⟨?_, fun hh => Bool.noConfusion hh, fun _ => ?_⟩
    · simp only [Bool.true_eq_false, false_iff]
      push_neg
      refine ⟨hnotcov.1, fun f hf => by simpa using hnotcov.2 f hf⟩
    · show p ∈ (setActualPartName st e.znode_name p).future_parts
      unfold setActualPartName
      rw [hold]
      exact List.mem_cons_self _ _

/-- C10 witness: a success case (part registered) and a reject case
(covered name: state unchanged, reason written). -/
theorem addFuturePart_witness :
    (⟨"x", 1, 1, 1⟩ : PartInfo) ∈ (addFuturePartIfNotCoveredByThem
        ⟨[⟨"g-1", EntryKind.GET_PART, ⟨"x", 1, 1, 1⟩, [], 0, true, "", "", 0⟩],
          [⟨"y", 5, 5, 5⟩], [], [], []⟩ ⟨"x", 1, 1, 1⟩
        ⟨"g-1", EntryKind.GET_PART, ⟨"x", 1, 1, 1⟩, [], 0, true, "", "", 0⟩).2.1.future_parts
    ∧ (addFuturePartIfNotCoveredByThem
        ⟨[⟨"g-1", EntryKind.GET_PART, ⟨"x", 1, 1, 1⟩, [], 0, true, "", "", 0⟩],
          [⟨"x", 0, 5, 0⟩], [], [], []⟩ ⟨"x", 1, 1, 1⟩
        ⟨"g-1", EntryKind.GET_PART, ⟨"x", 1, 1, 1⟩, [], 0, true, "", "", 0⟩).2.1 =
      ⟨[⟨"g-1", EntryKind.GET_PART, ⟨"x", 1, 1, 1⟩, [], 0, true, "", "", 0⟩],
        [⟨"x", 0, 5, 0⟩], [], [], []⟩
    ∧ (addFuturePartIfNotCoveredByThem
        ⟨[⟨"g-1", EntryKind.GET_PART, ⟨"x", 1, 1, 1⟩, [], 0, true, "", "", 0⟩],
          [⟨"x", 0, 5, 0⟩], [], [], []⟩ ⟨"x", 1, 1, 1⟩
        ⟨"g-1", EntryKind.GET_PART, ⟨"x", 1, 1, 1⟩, [], 0, true, "", "", 0⟩).2.2 ≠ "" := by
  refine ⟨?_, ?_⟩
  · exact (addFuturePart_spec _ _ _
      ⟨⟨"g-1", EntryKind.GET_PART, ⟨"x", 1, 1, 1⟩, [], 0, true, "", "", 0⟩,
        by decide, rfl⟩).2.2 (by decide)
  · exact (addFuturePart_spec _ _ _
      ⟨⟨"g-1", EntryKind.GET_PART, ⟨"x", 1, 1, 1⟩, [], 0, true, "", "", 0⟩,
        by decide, rfl⟩).2.1 (by decide)

/-- C5: when execution of an entry fails, `processEntry` reports false,
the guard release removes the part registration from `future_parts` on
every outcome (success or failure alike), no entry is removed from the
queue, and the entry is back in pending state with the failure reason
recorded, eligible for reselection. -/
theorem processEntry_failure_spec (st : QState) (e : LogEntry) (msg : String)
    (he : e ∈ st.queue)
    (hcount : st.future_parts.countP (fun f => decide (f = e.new_part_name)) ≤ 1) :
    (processEntry st e (.failure msg)).2 = false
    ∧ (∀ out : ExecOutcome, e.new_part_name ∉ (processEntry st e out).1.future_parts)
    ∧ (processEntry st e (.failure msg)).1.queue.length = st.queue.length
    ∧ ∃ q ∈ (processEntry st e (.failure msg)).1.queue,
        q.znode_name = e.znode_name ∧ q.currently_executing = false
          ∧ q.exception_message = msg := by
  refine ⟨rfl, ?_, ?_, ?_⟩
  · intro out
    have hnm := not_mem_eraseP_of_countP_le_one hcount e.new_part_name (by simp)
    cases out with
    | success => exact hnm
    | failure m => exact hnm
  · simp [processEntry, releaseGuard]
  · have h1 : ({ e with currently_executing := false } : LogEntry) ∈ (releaseGuard st e).queue := by
      unfold releaseGuard
      have h2 := List.mem_map_of_mem
        (f := fun q => if q.znode_name = e.znode_name then
          { q with currently_executing := false } else q) he
      simpa using h2
    have h3 := List.mem_map_of_mem
      (f := fun q => if q.znode_name = e.znode_name then
        { q with exception_message := msg } else q) h1
    refine ⟨{ e with currently_executing := false, exception_message := msg }, ?_, rfl, rfl, rfl⟩
    show _ ∈ ((releaseGuard st e).queue.map _)
    simpa using h3

/-- C5 witness: a concrete failing execution of an executing fetch entry:
the report is false, the registration is gone (on both exit paths), the
queue keeps its single entry, now pending with the message recorded. -/
theorem processEntry_failure_witness :
    (processEntry
      ⟨[⟨"g-1", EntryKind.GET_PART, ⟨"x", 1, 1, 1⟩, [], 0, true, "", "", 1⟩],
        [⟨"x", 1, 1, 1⟩], [], [], []⟩
      ⟨"g-1", EntryKind.GET_PART, ⟨"x", 1, 1, 1⟩, [], 0, true, "", "", 1⟩
      (.failure "disk full")).2 = false
    ∧ (⟨"x", 1, 1, 1⟩ : PartInfo) ∉ (processEntry
      ⟨[⟨"g-1", EntryKind.GET_PART, ⟨"x", 1, 1, 1⟩, [], 0, true, "", "", 1⟩],
        [⟨"x", 1, 1, 1⟩], [], [], []⟩
      ⟨"g-1", EntryKind.GET_PART, ⟨"x", 1, 1, 1⟩, [], 0, true, "", "", 1⟩
      ExecOutcome.success).1.future_parts
    ∧ (processEntry
      ⟨[⟨"g-1", EntryKind.GET_PART, ⟨"x", 1, 1, 1⟩, [], 0, true, "", "", 1⟩],
        [⟨"x", 1, 1, 1⟩], [], [], []⟩
      ⟨"g-1", EntryKind.GET_PART, ⟨"x", 1, 1, 1⟩, [], 0, true, "", "", 1⟩
      (.failure "disk full")).1.queue.length = 1
    ∧ ∃ q ∈ (processEntry
      ⟨[⟨"g-1", EntryKind.GET_PART, ⟨"x", 1, 1, 1⟩, [], 0, true, "", "", 1⟩],
        [⟨"x", 1, 1, 1⟩], [], [], []⟩
      ⟨"g-1", EntryKind.GET_PART, ⟨"x", 1, 1, 1⟩, [], 0, true, "", "", 1⟩
      (.failure "disk full")).1.queue,
        q.znode_name = "g-1" ∧ q.currently_executing = false
          ∧ q.exception_message = "disk full" := by
  have h := processEntry_failure_spec
    ⟨[⟨"g-1", EntryKind.GET_PART, ⟨"x", 1, 1, 1⟩, [], 0, true, "", "", 1⟩],
      [⟨"x", 1, 1, 1⟩], [], [], []⟩
    ⟨"g-1", EntryKind.GET_PART, ⟨"x", 1, 1, 1⟩, [], 0, true, "", "", 1⟩
    "disk full" (by decide) (by decide)
  exact ⟨h.1, h.2.1 ExecOutcome.success, h.2.2.1, h.2.2.2⟩

theorem pullLogs_no_new (ss : SyncState) (log : List LogEntry)
    (h : log.length ≤ ss.log_pointer) : pullLogsToQueue ss log = (ss, false) := by
  have hd : log.drop ss.log_pointer = [] := List.drop_eq_nil_of_le h
  unfold pullLogsToQueue
  rw [hd]
  rfl

/-- C7: `insert` is idempotent with respect to entry identity (a second
insert of the same identity changes nothing, so the queue has no
duplicate and the virtual part set is the one of a single call), and
`pullLogsToQueue` run a second time when the external log has no new
children changes nothing and reports that nothing new was pulled. -/
theorem insert_and_pullLogs_idempotent (st : QState) (e : LogEntry)
    (ss : SyncState) (log : List LogEntry) :
    insertEntry (insertEntry st e) e = insertEntry st e
    ∧ (pullLogsToQueue (pullLogsToQueue ss log).1 log).1 = (pullLogsToQueue ss log).1
    ∧ (pullLogsToQueue (pullLogsToQueue ss log).1 log).2 = false := by
  have hins : ∀ s : QState,
      s.queue.any (fun q => decide (q.znode_name = e.znode_name)) = true →
      insertEntry s e = s := by
    intro s hc
    unfold insertEntry
    rw [if_pos hc]
  have hge : log.length ≤ (pullLogsToQueue ss log).1.log_pointer := by
    show log.length ≤ ss.log_pointer + (log.drop ss.log_pointer).length
    rw [List.length_drop]
    omega
  have hsecond : pullLogsToQueue (pullLogsToQueue ss log).1 log =
      ((pullLogsToQueue ss log).1, false) := pullLogs_no_new _ _ hge
  refine ⟨?_, ?_, ?_⟩
  · by_cases hc : st.queue.any (fun q => decide (q.znode_name = e.znode_name)) = true
    · rw [hins st hc, hins st hc]
    · have h1 : insertEntry st e =
          { st with
            queue := st.queue ++ [{ e with currently_executing := false }],
            virtual_parts := vpAdd st.virtual_parts e.new_part_name false } := by
        unfold insertEntry
        rw [if_neg hc]
      rw [h1]
      apply hins
      simp
  · rw [hsecond]
  · rw [hsecond]

/-- C2: `canMergeParts` permits a merge only if: no pending merge or
mutation in the queue targets a result overlapping the merged range, the
two parts need the same mutation version, no committing insert block
number lies strictly between the two ranges, and no virtual part lies
strictly between them.  In particular an unfinished insert block number
strictly between the parts always forces a rejection. -/
theorem canMergeParts_spec (st : QState) (left right : PartInfo) :
    (canMergeParts st left right = none →
      (∀ q ∈ st.queue, entryIsMergeOrMutate q.kind = true →
          q.new_part_name.overlaps (mergeRange left right) = false)
      ∧ getCurrentMutationVersion st left = getCurrentMutationVersion st right
      ∧ (∀ b ∈ blocksForPartition st.current_inserts left.partition_id,
          ¬(left.max_block < b ∧ b < right.min_block))
      ∧ (∀ v ∈ st.virtual_parts, v.part.partition_id = left.partition_id →
          ¬(left.max_block < v.part.min_block ∧ v.part.max_block < right.min_block)))
    ∧ (∀ b ∈ blocksForPartition st.current_inserts left.partition_id,
        left.max_block < b → b < right.min_block →
          canMergeParts st left right ≠ none) := by
  constructor
  · intro h
    unfold canMergeParts at h
    split at h
    · cases h
    · split at h
      · cases h
      · split at h
        · cases h
        · split at h
          · cases h
          · rename_i h1 h2 h3 h4
            refine ⟨?_, not_ne_iff.mp h2, ?_, ?_⟩
            · intro q hq hk
              by_contra hcon
              refine h1 (List.any_eq_true.mpr ⟨q, hq, ?_⟩)
              simp only [hk, Bool.true_and]
              simpa using hcon
            · intro b hb hcon
              exact h3 (List.any_eq_true.mpr ⟨b, hb, decide_eq_true hcon⟩)
            · intro v hv hpid hcon
              refine h4 (List.any_eq_true.mpr ⟨v, hv, ?_⟩)
              simp [hpid, hcon.1, hcon.2]
  · intro b hb h5 h6 hnone
    unfold canMergeParts at hnone
    split at hnone
    · cases hnone
    · split at hnone
      · cases hnone
      · split at hnone
        · cases hnone
        · rename_i h1 h2 h3
          exact h3 (List.any_eq_true.mpr ⟨b, hb, decide_eq_true ⟨h5, h6⟩⟩)

/-- C2 witness: with one non-overlapping pending merge in the queue the
admission succeeds and the pending merge indeed does not overlap the
merged range; with a committing insert block 4 strictly between parts
p_0_2 and p_6_8, the merge is rejected. -/
theorem canMergeParts_witness :
    PartInfo.overlaps ⟨"z", 0, 9, 0⟩ (mergeRange ⟨"p", 0, 2, 0⟩ ⟨"p", 3, 5, 0⟩) = false
    ∧ canMergeParts ⟨[], [], [], [("p", [4])], []⟩ ⟨"p", 0, 2, 0⟩ ⟨"p", 6, 8, 0⟩ ≠ none := by
  constructor
  · exact ((canMergeParts_spec
      ⟨[⟨"m-1", EntryKind.MERGE_PARTS, ⟨"z", 0, 9, 0⟩, [], 0, false, "", "", 0⟩],
        [], [], [("p", [2])], []⟩ ⟨"p", 0, 2, 0⟩ ⟨"p", 3, 5, 0⟩).1 (by decide)).1
      ⟨"m-1", EntryKind.MERGE_PARTS, ⟨"z", 0, 9, 0⟩, [], 0, false, "", "", 0⟩
      (by decide) (by decide)
  · exact (canMergeParts_spec ⟨[], [], [], [("p", [4])], []⟩
      ⟨"p", 0, 2, 0⟩ ⟨"p", 6, 8, 0⟩).2 4 (by decide) (by decide) (by decide)

/-! ## Mutation ledger lemmas (for C8) -/

theorem currentFold_spec (dv : Int) :
    ∀ (L : List MutationEntry) (acc : Int),
      (L.foldl (currentVersionStep dv) acc = acc
        ∨ ∃ m ∈ L, L.foldl (currentVersionStep dv) acc = m.block_version
            ∧ L.foldl (currentVersionStep dv) acc ≤ dv)
      ∧ acc ≤ L.foldl (currentVersionStep dv) acc
      ∧ ∀ m ∈ L, m.block_version ≤ dv →
          m.block_version ≤ L.foldl (currentVersionStep dv) acc
  | [], acc => ⟨Or.inl rfl, le_refl _, by intro m hm; cases hm⟩
  | m :: L, acc => by
    simp only [List.foldl_cons]
    obtain ⟨ih1, ih2, ih3⟩ := currentFold_spec dv L (currentVersionStep dv acc m)
    by_cases hc : m.block_version ≤ dv ∧ acc < m.block_version
    · have hstep : currentVersionStep dv acc m = m.block_version := by
        unfold currentVersionStep; rw [if_pos hc]
      refine ⟨?_, ?_, ?_⟩
      · rcases ih1 with h | ⟨m2, hm2, he, hle⟩
        · exact Or.inr ⟨m, List.mem_cons_self _ _, by rw [h, hstep],
            by rw [h, hstep]; exact hc.1⟩
        · exact Or.inr ⟨m2, List.mem_cons_of_mem _ hm2, he, hle⟩
      · calc acc ≤ currentVersionStep dv acc m := by rw [hstep]; exact le_of_lt hc.2
          _ ≤ _ := ih2
      · intro m2 hm2 hle
        rcases List.mem_cons.mp hm2 with rfl | hm2
        · calc m2.block_version = currentVersionStep dv acc m2 := hstep.symm
            _ ≤ _ := ih2
        · exact ih3 m2 hm2 hle
    · have hstep : currentVersionStep dv acc m = acc := by
        unfold currentVersionStep; rw [if_neg hc]
      rw [hstep] at ih1 ih2 ih3 ⊢
      refine ⟨?_, ih2, ?_⟩
      · rcases ih1 with h | ⟨m2, hm2, he, hle⟩
        · exact Or.inl h
        · exact Or.inr ⟨m2, List.mem_cons_of_mem _ hm2, he, hle⟩
      · intro m2 hm2 hle
        rcases List.mem_cons.mp hm2 with rfl | hm2
        · push_neg at hc
          exact le_trans (hc hle) ih2
        · exact ih3 m2 hm2 hle

theorem desiredFold_spec (cur : Int) :
    ∀ (L : List MutationEntry) (acc : Option Int),
      (L.foldl (desiredVersionStep cur) acc = none →
        acc = none ∧ ∀ m ∈ L, ¬ cur < m.block_version)
      ∧ (∀ w, L.foldl (desiredVersionStep cur) acc = some w →
          (acc = some w ∨ ((∃ m ∈ L, m.block_version = w) ∧ cur < w))
          ∧ (∀ m ∈ L, cur < m.block_version → w ≤ m.block_version)
          ∧ (∀ u, acc = some u → w ≤ u))
  | [], acc => by
    refine ⟨fun h => ⟨h, ?_⟩, fun w hw => ⟨Or.inl hw, ?_, fun u hu => ?_⟩⟩
    · intro m hm; cases hm
    · intro m hm; cases hm
    · simp only [List.foldl_nil] at hw
      rw [hw] at hu
      cases hu
      exact le_refl _
  | m :: L, acc => by
    simp only [List.foldl_cons]
    obtain ⟨ih1, ih2⟩ := desiredFold_spec cur L (desiredVersionStep cur acc m)
    by_cases hc : cur < m.block_version
    · have hstep : ∀ w, desiredVersionStep cur acc m = some w →
          w ≤ m.block_version ∧ (acc = some w ∨ m.block_version = w)
            ∧ (∀ u, acc = some u → w ≤ u) := by
        intro w hw
        cases acc with
        | none =>
          have he : desiredVersionStep cur none m = some m.block_version := by
            simp [desiredVersionStep, hc]
          rw [he] at hw
          cases hw
          exact ⟨le_refl _, Or.inr rfl, fun u hu => by cases hu⟩
        | some u =>
          by_cases hlt : m.block_version < u
          · have he : desiredVersionStep cur (some u) m = some m.block_version := by
              simp [desiredVersionStep, hc, hlt]
            rw [he] at hw
            cases hw
            exact ⟨le_refl _, Or.inr rfl, fun v hv => by cases hv; exact le_of_lt hlt⟩
          · have he : desiredVersionStep cur (some u) m = some u := by
              simp [desiredVersionStep, hc, hlt]
            rw [he] at hw
            cases hw
            exact ⟨le_of_not_lt hlt, Or.inl rfl, fun v hv => by cases hv; exact le_refl _⟩
      have hsome : ∃ w0, desiredVersionStep cur acc m = some w0 := by
        cases acc with
        | none => exact ⟨m.block_version, by simp [desiredVersionStep, hc]⟩
        | some u =>
          by_cases hlt : m.block_version < u
          · exact ⟨m.block_version, by simp [desiredVersionStep, hc, hlt]⟩
          · exact ⟨u, by simp [desiredVersionStep, hc, hlt]⟩
      refine ⟨fun h => ?_, fun w hw => ?_⟩
      · obtain ⟨w0, hw0⟩ := hsome
        rw [(ih1 h).1] at hw0
        cases hw0
      · obtain ⟨hw1, hw2, hw3⟩ := ih2 w hw
        obtain ⟨w0, hw0⟩ := hsome
        obtain ⟨hs1, hs2, hs3⟩ := hstep w0 hw0
        have hwle : w ≤ w0 := hw3 w0 hw0
        refine ⟨?_, ?_, ?_⟩
        · rcases hw1 with h | ⟨⟨m2, hm2, hme⟩, hcw⟩
          · rw [hw0] at h
            cases h
            rcases hs2 with h2 | h2
            · exact Or.inl h2
            · exact Or.inr ⟨⟨m, List.mem_cons_self _ _, h2⟩, h2 ▸ hc⟩
          · exact Or.inr ⟨⟨m2, List.mem_cons_of_mem _ hm2, hme⟩, hcw⟩
        · intro m2 hm2 hcm
          rcases List.mem_cons.mp hm2 with rfl | hm2
          · exact le_trans hwle hs1
          · exact hw2 m2 hm2 hcm
        · intro u hu
          exact le_trans hwle (hs3 u hu)
    · have hstep : desiredVersionStep cur acc m = acc := by
        unfold desiredVersionStep; rw [if_neg hc]
      rw [hstep] at ih1 ih2
      refine ⟨fun h => ?_, fun w hw => ?_⟩
      · obtain ⟨ha, hall⟩ := ih1 (by rw [← hstep]; exact h)
        refine ⟨ha, ?_⟩
        intro m2 hm2
        rcases List.mem_cons.mp hm2 with rfl | hm2
        · exact hc
        · exact hall m2 hm2
      · obtain ⟨hw1, hw2, hw3⟩ := ih2 w (by rw [← hstep]; exact hw)
        refine ⟨?_, ?_, hw3⟩
        · rcases hw1 with h | ⟨⟨m2, hm2, hme⟩, hcw⟩
          · exact Or.inl h
          · exact Or.inr ⟨⟨m2, List.mem_cons_of_mem _ hm2, hme⟩, hcw⟩
        · intro m2 hm2 hcm
          rcases List.mem_cons.mp hm2 with rfl | hm2
          · exact absurd hcm hc
          · exact hw2 m2 hm2 hcm

theorem sorted_dropWhile_eq_filter (dv : Int) :
    ∀ L : List MutationEntry,
      L.Pairwise (fun m₁ m₂ => m₁.block_version < m₂.block_version) →
      L.dropWhile (fun m => decide (m.block_version ≤ dv))
        = L.filter (fun m => decide (dv < m.block_version))
  | [], _ => rfl
  | m :: L, h => by
    obtain ⟨h1, h2⟩ := List.pairwise_cons.mp h
    by_cases hc : m.block_version ≤ dv
    · rw [List.dropWhile_cons_of_pos (by simpa using hc),
        List.filter_cons_of_neg (by simpa using hc)]
      exact sorted_dropWhile_eq_filter dv L h2
    · rw [List.dropWhile_cons_of_neg (by simpa using hc),
        List.filter_cons_of_pos (by simpa using hc)]
      congr 1
      symm
      rw [List.filter_eq_self]
      intro a ha
      have := h1 a ha
      simp only [decide_eq_true_eq]
      omega

theorem sorted_takeWhile_eq_filter (d : Int) :
    ∀ L : List MutationEntry,
      L.Pairwise (fun m₁ m₂ => m₁.block_version < m₂.block_version) →
      L.takeWhile (fun m => decide (m.block_version ≤ d))
        = L.filter (fun m => decide (m.block_version ≤ d))
  | [], _ => rfl
  | m :: L, h => by
    obtain ⟨h1, h2⟩ := List.pairwise_cons.mp h
    by_cases hc : m.block_version ≤ d
    · rw [List.takeWhile_cons_of_pos (by simpa using hc),
        List.filter_cons_of_pos (by simpa using hc)]
      congr 1
      exact sorted_takeWhile_eq_filter d L h2
    · rw [List.takeWhile_cons_of_neg (by simpa using hc),
        List.filter_cons_of_neg (by simpa using hc)]
      symm
      rw [List.filter_eq_nil_iff]
      intro a ha
      have := h1 a ha
      simp only [decide_eq_true_eq]
      omega

/-- C8: for a part at current mutation version `V`: `canMutatePart`
reports exactly the smallest pending ledger version above `V` for the
part's partition (and "already current" — `none` — exactly when nothing
in the ledger exceeds `V`), and `getMutationCommands` returns the
concatenated commands of the ledger entries with versions in
`(V, desired]`, in ledger order. -/
theorem canMutatePart_getMutationCommands_spec (st : QState) (p : PartInfo)
    (hsorted : st.mutations.Pairwise (fun m₁ m₂ => m₁.block_version < m₂.block_version))
    (hpos : ∀ m ∈ st.mutations, 0 ≤ m.block_version) :
    (∀ w, canMutatePart st p = some w →
        (∃ m ∈ mutationsForPartition st p.partition_id, m.block_version = w)
        ∧ getCurrentMutationVersion st p < w
        ∧ ∀ m ∈ mutationsForPartition st p.partition_id,
            getCurrentMutationVersion st p < m.block_version → w ≤ m.block_version)
    ∧ (canMutatePart st p = none →
        ∀ m ∈ mutationsForPartition st p.partition_id,
          m.block_version ≤ getCurrentMutationVersion st p)
    ∧ (∀ d, getMutationCommands st p d =
        (((mutationsForPartition st p.partition_id).filter
            (fun m => decide (getCurrentMutationVersion st p < m.block_version
              ∧ m.block_version ≤ d))).map MutationEntry.commands).flatten) := by
  have hVdef : getCurrentMutationVersion st p
      = (mutationsForPartition st p.partition_id).foldl
          (currentVersionStep p.data_version) (-1) := rfl
  have hCdef : canMutatePart st p
      = (mutationsForPartition st p.partition_id).foldl
          (desiredVersionStep (getCurrentMutationVersion st p)) none := rfl
  have hLsorted : (mutationsForPartition st p.partition_id).Pairwise
      (fun m₁ m₂ => m₁.block_version < m₂.block_version) :=
    hsorted.sublist (List.filter_sublist _)
  have hLpos : ∀ m ∈ mutationsForPartition st p.partition_id, 0 ≤ m.block_version :=
    fun m hm => hpos m (List.mem_of_mem_filter hm)
  obtain ⟨hcf1, hcf2, hcf3⟩ :=
    currentFold_spec p.data_version (mutationsForPartition st p.partition_id) (-1)
  rw [← hVdef] at hcf1 hcf2 hcf3
  obtain ⟨hdf1, hdf2⟩ := desiredFold_spec (getCurrentMutationVersion st p)
    (mutationsForPartition st p.partition_id) none
  rw [← hCdef] at hdf1 hdf2
  have hgt : ∀ m ∈ mutationsForPartition st p.partition_id,
      (p.data_version < m.block_version
        ↔ getCurrentMutationVersion st p < m.block_version) := by
    intro m hm
    constructor
    · intro hdv
      rcases hcf1 with h | ⟨m2, hm2, he, hle⟩
      · have := hLpos m hm
        omega
      · omega
    · intro hVlt
      by_contra hnd
      push_neg at hnd
      have := hcf3 m hm hnd
      omega
  refine ⟨?_, ?_, ?_⟩
  · intro w hw
    obtain ⟨h1, h2, _⟩ := hdf2 w hw
    rcases h1 with h | ⟨hex, hcw⟩
    · cases h
    · exact ⟨hex, hcw, h2⟩
  · intro h m hm
    exact le_of_not_lt ((hdf1 h).2 m hm)
  · intro d
    have h1 : (mutationsForPartition st p.partition_id).dropWhile
        (fun m => decide (m.block_version ≤ p.data_version))
        = (mutationsForPartition st p.partition_id).filter
          (fun m => decide (p.data_version < m.block_version)) :=
      sorted_dropWhile_eq_filter _ _ hLsorted
    have h2 : ((mutationsForPartition st p.partition_id).filter
          (fun m => decide (p.data_version < m.block_version))).takeWhile
        (fun m => decide (m.block_version ≤ d))
        = ((mutationsForPartition st p.partition_id).filter
          (fun m => decide (p.data_version < m.block_version))).filter
          (fun m => decide (m.block_version ≤ d)) :=
      sorted_takeWhile_eq_filter _ _ (hLsorted.sublist (List.filter_sublist _))
    unfold getMutationCommands
    rw [h1, h2, List.filter_filter]
    congr 2
    apply List.filter_congr
    intro m hm
    have hg := hgt m hm
    rw [Bool.eq_iff_iff]
    simp only [Bool.and_eq_true, decide_eq_true_eq]
    constructor
    · rintro ⟨hd, hdv⟩
      exact ⟨hg.mp hdv, hd⟩
    · rintro ⟨hv, hd⟩
      exact ⟨hd, hg.mpr hv⟩

/-- C8 witness: the spec scenario.  Ledger entry v5 for partition
"202401" with commands; a part of that partition at version 3: the
desired version is 5, it exceeds the part's current mutation version, and
the returned commands are exactly the scenario's expectation (everything
in (3, 5], here the commands of v5). -/
theorem canMutatePart_witness :
    canMutatePart ⟨[], [], [], [], [⟨5, ["202401"], ["cmd-a", "cmd-b"]⟩]⟩
      ⟨"202401", 3, 3, 3⟩ = some 5
    ∧ getCurrentMutationVersion ⟨[], [], [], [], [⟨5, ["202401"], ["cmd-a", "cmd-b"]⟩]⟩
      ⟨"202401", 3, 3, 3⟩ < 5
    ∧ getMutationCommands ⟨[], [], [], [], [⟨5, ["202401"], ["cmd-a", "cmd-b"]⟩]⟩
      ⟨"202401", 3, 3, 3⟩ 5 = ["cmd-a", "cmd-b"] := by
  have h := canMutatePart_getMutationCommands_spec
    ⟨[], [], [], [], [⟨5, ["202401"], ["cmd-a", "cmd-b"]⟩]⟩ ⟨"202401", 3, 3, 3⟩
    (by simp) (by simp)
  refine ⟨by decide, (h.1 5 (by decide)).2.1, ?_⟩
  rw [h.2.2 5]
  decide

/-! ## Selection scan (for C3 and C4) -/

theorem selectFrom_some (st : QState) (ms : Bool) (dp : List PartInfo) :
    ∀ (l : List LogEntry) (e : LogEntry) (l2 : List LogEntry),
      selectFrom st ms dp l = some (e, l2) →
      ∃ pre post, l = pre ++ e :: post
        ∧ l2 = pre.map (recordPostpone st ms dp) ++ markExecuting e :: post
        ∧ e.currently_executing = false
        ∧ shouldExecuteLogEntry st ms dp e = none
        ∧ ∀ x ∈ pre, x.currently_executing = true
            ∨ (shouldExecuteLogEntry st ms dp x).isSome = true
  | [], e, l2, h => by cases h
  | a :: rest, e, l2, h => by
    unfold selectFrom at h
    split at h
    · rename_i hex
      cases hrec : selectFrom st ms dp rest with
      | none => rw [hrec] at h; cases h
      | some pr =>
        rw [hrec] at h
        simp only [Option.map_some'] at h
        rw [Option.some.injEq, Prod.mk.injEq] at h
        obtain ⟨he, hl⟩ := h
        obtain ⟨pre, post, hsplit, hq, hexec, hshould, hpre⟩ :=
          selectFrom_some st ms dp rest pr.1 pr.2 (by rw [hrec])
        refine ⟨a :: pre, post, ?_, ?_, he ▸ hexec, he ▸ hshould, ?_⟩
        · rw [List.cons_append, ← he, ← hsplit]
        · rw [← hl, ← he, List.map_cons]
          have hra : recordPostpone st ms dp a = a := by
            unfold recordPostpone
            rw [if_pos hex]
          rw [hra, List.cons_append, hq]
        · intro x hx
          rcases List.mem_cons.mp hx with rfl | hx
          · exact Or.inl hex
          · exact hpre x hx
    · rename_i hex
      split at h
      · rename_i hse
        rw [Option.some.injEq, Prod.mk.injEq] at h
        obtain ⟨he, hl⟩ := h
        refine ⟨[], rest, ?_, ?_, ?_, ?_, ?_⟩
        · rw [List.nil_append, he]
        · rw [List.map_nil, List.nil_append, ← hl, he]
        · rw [← he]
          exact Bool.not_eq_true _ ▸ (by simpa using hex)
        · rw [← he]; exact hse
        · intro x hx; cases hx
      · rename_i r hse
        cases hrec : selectFrom st ms dp rest with
        | none => rw [hrec] at h; cases h
        | some pr =>
          rw [hrec] at h
          simp only [Option.map_some'] at h
          rw [Option.some.injEq, Prod.mk.injEq] at h
          obtain ⟨he, hl⟩ := h
          obtain ⟨pre, post, hsplit, hq, hexec, hshould, hpre⟩ :=
            selectFrom_some st ms dp rest pr.1 pr.2 (by rw [hrec])
          refine ⟨a :: pre, post, ?_, ?_, he ▸ hexec, he ▸ hshould, ?_⟩
          · rw [List.cons_append, ← he, ← hsplit]
          · rw [← hl, ← he, List.map_cons]
            have hra : recordPostpone st ms dp a = { a with postpone_reason := r } := by
              unfold recordPostpone
              rw [if_neg hex, hse]
            rw [hra, List.cons_append, hq]
          · intro x hx
            rcases List.mem_cons.mp hx with rfl | hx
            · refine Or.inr ?_
              rw [hse]
              rfl
            · exact hpre x hx

/-- C3: when `selectEntryToProcess` returns an entry, that entry is the
first pending entry of the queue that the admission predicate accepts:
the queue splits as `pre ++ e :: post` where every entry of `pre` is
either already executing or was reported not-runnable by
`shouldExecuteLogEntry` on this pass; the returned state carries the
`CurrentlyExecuting` guard: `e` is marked executing (with the attempt
counted) and its result part is registered in `future_parts`. -/
theorem selectEntryToProcess_spec (st : QState) (ms : Bool) (dp : List PartInfo)
    (e : LogEntry) (st2 : QState)
    (h : selectEntryToProcess st ms dp = some (e, st2)) :
    ∃ pre post, st.queue = pre ++ e :: post
      ∧ e.currently_executing = false
      ∧ shouldExecuteLogEntry st ms dp e = none
      ∧ (∀ x ∈ pre, x.currently_executing = true
          ∨ (shouldExecuteLogEntry st ms dp x).isSome = true)
      ∧ st2.queue = pre.map (recordPostpone st ms dp) ++ markExecuting e :: post
      ∧ st2.future_parts = e.new_part_name :: st.future_parts := by
  unfold selectEntryToProcess at h
  cases hrec : selectFrom st ms dp st.queue with
  | none => rw [hrec] at h; cases h
  | some pr =>
    rw [hrec] at h
    simp only [Option.map_some'] at h
    rw [Option.some.injEq, Prod.mk.injEq] at h
    obtain ⟨he, hst2⟩ := h
    obtain ⟨pre, post, hsplit, hq, hexec, hshould, hpre⟩ :=
      selectFrom_some st ms dp st.queue pr.1 pr.2 (by rw [hrec])
    subst hst2
    exact ⟨pre, post, he ▸ hsplit, he ▸ hexec, he ▸ hshould, hpre,
      by rw [← he]; exact hq, by rw [← he]⟩

/-- C3 witness: with merges suspended, a queue holding a pending merge
followed by a pending fetch selects the fetch: the merge before it was
reported not-runnable, the fetch is runnable, and the returned state
marks the fetch executing with its part registered. -/
theorem selectEntryToProcess_witness :
    ∃ pre post,
      ([⟨"m-1", EntryKind.MERGE_PARTS, ⟨"p", 0, 5, 0⟩, [], 0, false, "", "", 0⟩,
        ⟨"g-2", EntryKind.GET_PART, ⟨"p", 6, 6, 6⟩, [], 0, false, "", "", 0⟩] : List LogEntry)
        = pre ++ (⟨"g-2", EntryKind.GET_PART, ⟨"p", 6, 6, 6⟩, [], 0, false, "", "", 0⟩ : LogEntry) :: post
      ∧ (⟨"g-2", EntryKind.GET_PART, ⟨"p", 6, 6, 6⟩, [], 0, false, "", "", 0⟩ : LogEntry).currently_executing = false
      ∧ shouldExecuteLogEntry
          ⟨[⟨"m-1", EntryKind.MERGE_PARTS, ⟨"p", 0, 5, 0⟩, [], 0, false, "", "", 0⟩,
            ⟨"g-2", EntryKind.GET_PART, ⟨"p", 6, 6, 6⟩, [], 0, false, "", "", 0⟩], [], [], [], []⟩
          true [] ⟨"g-2", EntryKind.GET_PART, ⟨"p", 6, 6, 6⟩, [], 0, false, "", "", 0⟩ = none
      ∧ (∀ x ∈ pre, x.currently_executing = true
          ∨ (shouldExecuteLogEntry
              ⟨[⟨"m-1", EntryKind.MERGE_PARTS, ⟨"p", 0, 5, 0⟩, [], 0, false, "", "", 0⟩,
                ⟨"g-2", EntryKind.GET_PART, ⟨"p", 6, 6, 6⟩, [], 0, false, "", "", 0⟩], [], [], [], []⟩
              true [] x).isSome = true)
      ∧ (⟨[⟨"m-1", EntryKind.MERGE_PARTS, ⟨"p", 0, 5, 0⟩, [], 0, false,
            "Merges and mutations are suspended", "", 0⟩,
          ⟨"g-2", EntryKind.GET_PART, ⟨"p", 6, 6, 6⟩, [], 0, true, "", "", 1⟩],
          [⟨"p", 6, 6, 6⟩], [], [], []⟩ : QState).queue
        = pre.map (recordPostpone
            ⟨[⟨"m-1", EntryKind.MERGE_PARTS, ⟨"p", 0, 5, 0⟩, [], 0, false, "", "", 0⟩,
              ⟨"g-2", EntryKind.GET_PART, ⟨"p", 6, 6, 6⟩, [], 0, false, "", "", 0⟩], [], [], [], []⟩
            true [])
          ++ markExecuting ⟨"g-2", EntryKind.GET_PART, ⟨"p", 6, 6, 6⟩, [], 0, false, "", "", 0⟩ :: post
      ∧ (⟨[⟨"m-1", EntryKind.MERGE_PARTS, ⟨"p", 0, 5, 0⟩, [], 0, false,
            "Merges and mutations are suspended", "", 0⟩,
          ⟨"g-2", EntryKind.GET_PART, ⟨"p", 6, 6, 6⟩, [], 0, true, "", "", 1⟩],
          [⟨"p", 6, 6, 6⟩], [], [], []⟩ : QState).future_parts
        = (⟨"g-2", EntryKind.GET_PART, ⟨"p", 6, 6, 6⟩, [], 0, false, "", "", 0⟩ : LogEntry).new_part_name
          :: (⟨[⟨"m-1", EntryKind.MERGE_PARTS, ⟨"p", 0, 5, 0⟩, [], 0, false, "", "", 0⟩,
              ⟨"g-2", EntryKind.GET_PART, ⟨"p", 6, 6, 6⟩, [], 0, false, "", "", 0⟩], [], [], [], []⟩ : QState).future_parts :=
  selectEntryToProcess_spec
    ⟨[⟨"m-1", EntryKind.MERGE_PARTS, ⟨"p", 0, 5, 0⟩, [], 0, false, "", "", 0⟩,
      ⟨"g-2", EntryKind.GET_PART, ⟨"p", 6, 6, 6⟩, [], 0, false, "", "", 0⟩], [], [], [], []⟩
    true []
    ⟨"g-2", EntryKind.GET_PART, ⟨"p", 6, 6, 6⟩, [], 0, false, "", "", 0⟩
    ⟨[⟨"m-1", EntryKind.MERGE_PARTS, ⟨"p", 0, 5, 0⟩, [], 0, false,
        "Merges and mutations are suspended", "", 0⟩,
      ⟨"g-2", EntryKind.GET_PART, ⟨"p", 6, 6, 6⟩, [], 0, true, "", "", 1⟩],
      [⟨"p", 6, 6, 6⟩], [], [], []⟩
    (by decide)

/-! ## The execution invariant (for C4) -/

theorem recordPostpone_znode (st : QState) (ms : Bool) (dp : List PartInfo)
    (x : LogEntry) : (recordPostpone st ms dp x).znode_name = x.znode_name := by
  unfold recordPostpone
  split
  · rfl
  · split <;> rfl

theorem recordPostpone_exec (st : QState) (ms : Bool) (dp : List PartInfo)
    (x : LogEntry) :
    (recordPostpone st ms dp x).currently_executing = x.currently_executing := by
  unfold recordPostpone
  split
  · rfl
  · split <;> rfl

theorem recordPostpone_part (st : QState) (ms : Bool) (dp : List PartInfo)
    (x : LogEntry) : (recordPostpone st ms dp x).new_part_name = x.new_part_name := by
  unfold recordPostpone
  split
  · rfl
  · split <;> rfl

theorem shouldExecute_none_not_mem_future {st : QState} {ms : Bool}
    {dp : List PartInfo} {e : LogEntry}
    (h : shouldExecuteLogEntry st ms dp e = none) :
    e.new_part_name ∉ st.future_parts := by
  unfold shouldExecuteLogEntry at h
  cases hni : isNotCoveredByFuturePartsImpl st.future_parts e.new_part_name with
  | some r => rw [hni] at h; cases h
  | none => exact ((isNotCovered_none_iff _ _).mp hni).1

theorem atMostOne_of_pairwise : ∀ {l : List LogEntry},
    l.Pairwise (fun e₁ e₂ => e₁.currently_executing = true →
      e₂.currently_executing = true → e₁.new_part_name ≠ e₂.new_part_name) →
    atMostOneExecutingPerPart l = true := by
  intro l h
  induction l with
  | nil => rfl
  | cons e rest ih =>
    obtain ⟨h1, h2⟩ := List.pairwise_cons.mp h
    simp only [atMostOneExecutingPerPart, Bool.and_eq_true]
    refine ⟨?_, ih h2⟩
    cases hex : e.currently_executing with
    | false => simp
    | true =>
      simp only [Bool.not_true, Bool.false_or]
      rw [List.all_eq_true]
      intro q hq
      cases hqex : q.currently_executing with
      | false => simp
      | true =>
        simp only [Bool.not_true, Bool.false_or, Bool.not_eq_true',
          decide_eq_false_iff_not]
        exact fun hh => (h1 q hq hex hqex) hh.symm

theorem nodupPartsB_of_nodup : ∀ {l : List PartInfo}, l.Nodup → nodupPartsB l = true := by
  intro l h
  induction l with
  | nil => rfl
  | cons p rest ih =>
    obtain ⟨h1, h2⟩ := List.nodup_cons.mp h
    simp only [nodupPartsB, Bool.and_eq_true]
    refine ⟨?_, ih h2⟩
    simp only [Bool.not_eq_true', List.any_eq_false, decide_eq_true_eq]
    exact fun q hq hqe => h1 (hqe ▸ hq)

theorem execInv_initial (parts : List PartInfo) (ci : List (String × List Int))
    (muts : List MutationEntry) : ExecInv (initialState parts ci muts) :=
  ⟨List.Pairwise.nil, List.nodup_nil,
   fun e he => absurd he (List.not_mem_nil e), List.nodup_nil⟩

theorem execInv_insert (st : QState) (e : LogEntry) (h : ExecInv st) :
    ExecInv (insertEntry st e) := by
  obtain ⟨h1, h2, h3, h4⟩ := h
  unfold insertEntry
  split
  · exact ⟨h1, h2, h3, h4⟩
  · rename_i hc
    refine ⟨?_, h2, ?_, ?_⟩
    · rw [List.pairwise_append]
      refine ⟨h1, List.pairwise_singleton _ _, ?_⟩
      intro a ha b hb
      rcases List.mem_singleton.mp hb with rfl
      intro _ hbex
      simp at hbex
    · intro q hq hqex
      rcases List.mem_append.mp hq with hq | hq
      · exact h3 q hq hqex
      · rcases List.mem_singleton.mp hq with rfl
        simp at hqex
    · rw [List.map_append, List.nodup_append]
      refine ⟨h4, List.nodup_singleton _, ?_⟩
      intro a ha hb
      simp only [List.map_cons, List.map_nil, List.mem_singleton] at hb
      obtain ⟨q, hq, hqz⟩ := List.mem_map.mp ha
      exact hc (List.any_eq_true.mpr ⟨q, hq, by rw [hqz, hb]; simp⟩)

theorem execInv_select (st : QState) (ms : Bool) (dp : List PartInfo) (e : LogEntry)
    (st2 : QState) (hsel : selectEntryToProcess st ms dp = some (e, st2))
    (h : ExecInv st) : ExecInv st2 := by
  obtain ⟨h1, h2, h3, h4⟩ := h
  unfold selectEntryToProcess at hsel
  cases hrec : selectFrom st ms dp st.queue with
  | none => rw [hrec] at hsel; cases hsel
  | some pr =>
    rw [hrec] at hsel
    simp only [Option.map_some'] at hsel
    rw [Option.some.injEq, Prod.mk.injEq] at hsel
    obtain ⟨he, hst2⟩ := hsel
    subst hst2
    subst he
    obtain ⟨pre, post, hsplit, hq, hexec, hshould, hpre⟩ :=
      selectFrom_some st ms dp st.queue pr.1 pr.2 (by rw [hrec])
    have hnotfp : pr.1.new_part_name ∉ st.future_parts :=
      shouldExecute_none_not_mem_future hshould
    rw [hsplit] at h1 h3 h4
    rw [List.pairwise_append] at h1
    obtain ⟨hpre_pw, hcons_pw, hcross⟩ := h1
    obtain ⟨hepost, hpost_pw⟩ := List.pairwise_cons.mp hcons_pw
    have hmem_pre : ∀ x ∈ pre, x ∈ pre ++ pr.1 :: post :=
      fun x hx => List.mem_append.mpr (Or.inl hx)
    have hmem_post : ∀ x ∈ post, x ∈ pre ++ pr.1 :: post :=
      fun x hx => List.mem_append.mpr (Or.inr (List.mem_cons_of_mem _ hx))
    refine ⟨?_, ?_, ?_, ?_⟩ <;> dsimp only
    · rw [hq, List.pairwise_append]
      refine ⟨?_, ?_, ?_⟩
      · refine hpre_pw.map _ ?_
        intro a b hab ha hb
        rw [recordPostpone_exec] at ha hb
        rw [recordPostpone_part, recordPostpone_part]
        exact hab ha hb
      · rw [List.pairwise_cons]
        refine ⟨?_, hpost_pw⟩
        intro q hqm _ hqex heq
        exact hnotfp (heq ▸ h3 q (hmem_post q hqm) hqex)
      · intro a ham b hbm
        obtain ⟨x, hx, hax⟩ := List.mem_map.mp ham
        subst hax
        rcases List.mem_cons.mp hbm with rfl | hbm
        · intro hax _
          rw [recordPostpone_exec] at hax
          rw [recordPostpone_part]
          intro heq
          exact hnotfp (heq ▸ h3 x (hmem_pre x hx) hax)
        · intro hax hbx
          rw [recordPostpone_exec] at hax
          rw [recordPostpone_part]
          exact hcross x hx b (List.mem_cons_of_mem _ hbm) hax hbx
    · exact List.nodup_cons.mpr ⟨hnotfp, h2⟩
    · rw [hq]
      intro q hqm hqex
      rcases List.mem_append.mp hqm with hqm | hqm
      · obtain ⟨x, hx, hax⟩ := List.mem_map.mp hqm
        subst hax
        rw [recordPostpone_exec] at hqex
        rw [recordPostpone_part]
        exact List.mem_cons_of_mem _ (h3 x (hmem_pre x hx) hqex)
      · rcases List.mem_cons.mp hqm with rfl | hqm
        · exact List.mem_cons_self _ _
        · exact List.mem_cons_of_mem _
            (h3 q (hmem_post q hqm) hqex)
    · rw [hq, List.map_append, List.map_map, List.map_cons]
      have hmap : pre.map (LogEntry.znode_name ∘ recordPostpone st ms dp)
          = pre.map LogEntry.znode_name :=
        List.map_congr_left (fun a _ => recordPostpone_znode st ms dp a)
      rw [hmap]
      have hmk : (markExecuting pr.1).znode_name = pr.1.znode_name := rfl
      rw [hmk, ← List.map_cons, ← List.map_append]
      exact h4

theorem clearFlag_znode (id : String) (q : LogEntry) :
    (if q.znode_name = id then { q with currently_executing := false } else q).znode_name
      = q.znode_name := by
  split <;> rfl

theorem clearFlag_part (id : String) (q : LogEntry) :
    (if q.znode_name = id then { q with currently_executing := false } else q).new_part_name
      = q.new_part_name := by
  split <;> rfl

theorem clearFlag_exec (id : String) (q : LogEntry) :
    (if q.znode_name = id then { q with currently_executing := false }
      else q).currently_executing = true
      → q.currently_executing = true ∧ q.znode_name ≠ id := by
  split
  · intro hh; simp at hh
  · rename_i hn
    intro hh
    exact ⟨hh, hn⟩

theorem setExc_znode (id msg : String) (q : LogEntry) :
    (if q.znode_name = id then { q with exception_message := msg } else q).znode_name
      = q.znode_name := by
  split <;> rfl

theorem setExc_part (id msg : String) (q : LogEntry) :
    (if q.znode_name = id then { q with exception_message := msg } else q).new_part_name
      = q.new_part_name := by
  split <;> rfl

theorem setExc_exec (id msg : String) (q : LogEntry) :
    (if q.znode_name = id then { q with exception_message := msg }
      else q).currently_executing = q.currently_executing := by
  split <;> rfl

theorem execInv_releaseGuard (st : QState) (e : LogEntry)
    (he : e ∈ st.queue) (hex : e.currently_executing = true) (h : ExecInv st) :
    ExecInv (releaseGuard st e) := by
  obtain ⟨h1, h2, h3, h4⟩ := h
  have hsymm : Symmetric (fun e₁ e₂ : LogEntry => e₁.currently_executing = true →
      e₂.currently_executing = true → e₁.new_part_name ≠ e₂.new_part_name) :=
    fun a b hab hb ha => Ne.symm (hab ha hb)
  have hdistinct : ∀ q ∈ st.queue, q.currently_executing = true →
      q.znode_name ≠ e.znode_name → q.new_part_name ≠ e.new_part_name := by
    intro q hq hqex hqz
    have hne : q ≠ e := fun hqe => hqz (by rw [hqe])
    exact (h1.forall hsymm) hq he hne hqex hex
  refine ⟨?_, ?_, ?_, ?_⟩ <;> dsimp only [releaseGuard]
  · refine h1.map _ ?_
    intro a b hab ha hb
    obtain ⟨ha2, _⟩ := clearFlag_exec e.znode_name a ha
    obtain ⟨hb2, _⟩ := clearFlag_exec e.znode_name b hb
    rw [clearFlag_part, clearFlag_part]
    exact hab ha2 hb2
  · exact h2.sublist (List.eraseP_sublist _)
  · intro q hq hqex
    obtain ⟨x, hx, hax⟩ := List.mem_map.mp hq
    subst hax
    obtain ⟨hx2, hxz⟩ := clearFlag_exec e.znode_name x hqex
    rw [clearFlag_part]
    refine mem_eraseP_of_not (h3 x hx hx2) ?_
    exact decide_eq_false (hdistinct x hx hx2 hxz)
  · rw [List.map_map]
    have hmap : st.queue.map (LogEntry.znode_name ∘ fun q =>
        if q.znode_name = e.znode_name then { q with currently_executing := false } else q)
        = st.queue.map LogEntry.znode_name :=
      List.map_congr_left (fun a _ => clearFlag_znode e.znode_name a)
    rw [hmap]
    exact h4

theorem execInv_process (st : QState) (e : LogEntry) (out : ExecOutcome)
    (he : e ∈ st.queue) (hex : e.currently_executing = true) (h : ExecInv st) :
    ExecInv (processEntry st e out).1 := by
  obtain ⟨g1, g2, g3, g4⟩ := execInv_releaseGuard st e he hex h
  cases out with
  | success =>
    refine ⟨?_, g2, ?_, ?_⟩ <;> dsimp only [processEntry]
    · exact g1.sublist (List.filter_sublist _)
    · intro q hq hqex
      exact g3 q (List.mem_of_mem_filter hq) hqex
    · exact g4.sublist ((List.filter_sublist _).map _)
  | failure msg =>
    refine ⟨?_, g2, ?_, ?_⟩ <;> dsimp only [processEntry]
    · refine g1.map _ ?_
      intro a b hab ha hb
      rw [setExc_exec] at ha hb
      rw [setExc_part, setExc_part]
      exact hab ha hb
    · intro q hq hqex
      obtain ⟨x, hx, hax⟩ := List.mem_map.mp hq
      subst hax
      rw [setExc_exec] at hqex
      rw [setExc_part]
      exact g3 x hx hqex
    · rw [List.map_map]
      have hmap : (releaseGuard st e).queue.map (LogEntry.znode_name ∘ fun q =>
          if q.znode_name = e.znode_name then { q with exception_message := msg } else q)
          = (releaseGuard st e).queue.map LogEntry.znode_name :=
        List.map_congr_left (fun a _ => setExc_znode e.znode_name msg a)
      rw [hmap]
      exact g4

theorem setName_znode (id : String) (actual : PartInfo) (q : LogEntry) :
    (if q.znode_name = id then { q with new_part_name := actual } else q).znode_name
      = q.znode_name := by
  split <;> rfl

theorem setName_exec (id : String) (actual : PartInfo) (q : LogEntry) :
    (if q.znode_name = id then { q with new_part_name := actual }
      else q).currently_executing = q.currently_executing := by
  split <;> rfl

theorem execInv_setActual (st : QState) (e : LogEntry) (actual : PartInfo)
    (he : e ∈ st.queue) (hex : e.currently_executing = true)
    (hfresh : actual ∉ st.future_parts) (h : ExecInv st) :
    ExecInv (setActualPartName st e.znode_name actual) := by
  obtain ⟨h1, h2, h3, h4⟩ := h
  have hsymm : Symmetric (fun e₁ e₂ : LogEntry => e₁.currently_executing = true →
      e₂.currently_executing = true → e₁.new_part_name ≠ e₂.new_part_name) :=
    fun a b hab hb ha => Ne.symm (hab ha hb)
  have hzP : st.queue.Pairwise (fun a b => a.znode_name ≠ b.znode_name) :=
    List.pairwise_map.mp h4
  have huniq : ∀ a ∈ st.queue, ∀ b ∈ st.queue, a.znode_name = b.znode_name → a = b := by
    intro a ha b hb hz
    by_contra hne
    exact (hzP.forall (fun x y hxy => Ne.symm hxy) ha hb hne) hz
  have hfind0 : (st.queue.find? (fun q => decide (q.znode_name = e.znode_name))).isSome := by
    rw [List.find?_isSome]
    exact ⟨e, he, by simp⟩
  obtain ⟨old, hold⟩ := Option.isSome_iff_exists.mp hfind0
  have holde : old = e := by
    have hmem := List.mem_of_find?_eq_some hold
    have hz := List.find?_some hold
    exact huniq old hmem e he (of_decide_eq_true hz)
  subst holde
  have hst : setActualPartName st old.znode_name actual =
      { st with
        queue := st.queue.map (fun q =>
          if q.znode_name = old.znode_name then { q with new_part_name := actual } else q),
        future_parts := actual ::
          st.future_parts.eraseP (fun f => decide (f = old.new_part_name)) } := by
    unfold setActualPartName
    rw [hold]
  rw [hst]
  have hfreshE : actual ∉ st.future_parts.eraseP
      (fun f => decide (f = old.new_part_name)) :=
    fun hmem => hfresh ((List.eraseP_sublist _).subset hmem)
  have hdistinct : ∀ q ∈ st.queue, q.currently_executing = true →
      q.znode_name ≠ old.znode_name → q.new_part_name ≠ old.new_part_name := by
    intro q hq hqex hqz
    have hne : q ≠ old := fun hqe => hqz (by rw [hqe])
    exact (h1.forall hsymm) hq he hne hqex hex
  refine ⟨?_, ?_, ?_, ?_⟩ <;> dsimp only
  · rw [List.pairwise_map]
    refine (h1.and hzP).imp_of_mem ?_
    intro a b hmema hmemb hab
    obtain ⟨hR, hz⟩ := hab
    intro ha hb
    rw [setName_exec] at ha hb
    by_cases haz : a.znode_name = old.znode_name
    · by_cases hbz : b.znode_name = old.znode_name
      · exact absurd (haz.trans hbz.symm) hz
      · rw [if_pos haz, if_neg hbz]
        intro heq
        have heq2 : actual = b.new_part_name := heq
        exact hfresh (heq2 ▸ h3 b hmemb hb)
    · by_cases hbz : b.znode_name = old.znode_name
      · rw [if_neg haz, if_pos hbz]
        intro heq
        have heq2 : a.new_part_name = actual := heq
        exact hfresh (heq2 ▸ h3 a hmema ha)
      · rw [if_neg haz, if_neg hbz]
        exact hR ha hb
  · exact List.nodup_cons.mpr ⟨hfreshE, h2.sublist (List.eraseP_sublist _)⟩
  · intro q hq hqex
    obtain ⟨x, hx, hax⟩ := List.mem_map.mp hq
    subst hax
    rw [setName_exec] at hqex
    by_cases hxz : x.znode_name = old.znode_name
    · rw [if_pos hxz]
      exact List.mem_cons_self _ _
    · rw [if_neg hxz]
      refine List.mem_cons_of_mem _ (mem_eraseP_of_not (h3 x hx hqex) ?_)
      exact decide_eq_false (hdistinct x hx hqex hxz)
  · rw [List.map_map]
    have hmap : st.queue.map (LogEntry.znode_name ∘ fun q =>
        if q.znode_name = old.znode_name then { q with new_part_name := actual } else q)
        = st.queue.map LogEntry.znode_name :=
      List.map_congr_left (fun a _ => setName_znode old.znode_name actual a)
    rw [hmap]
    exact h4

theorem await_queue (l : List LogEntry) :
    ∀ s : QState, (awaitExecutingRemoved s l).queue = s.queue := by
  induction l with
  | nil => intro s; rfl
  | cons e l ih => intro s; exact ih _

theorem await_fp (l : List LogEntry) :
    ∀ s : QState, (awaitExecutingRemoved s l).future_parts
      = l.foldl (fun fp e => fp.eraseP (fun f => decide (f = e.new_part_name)))
          s.future_parts := by
  induction l with
  | nil => intro s; rfl
  | cons e l ih => intro s; exact ih _

theorem mem_foldl_eraseP (x : PartInfo) :
    ∀ (l : List LogEntry) (fp : List PartInfo), x ∈ fp →
      (∀ w ∈ l, w.new_part_name ≠ x) →
      x ∈ l.foldl (fun fp e => fp.eraseP (fun f => decide (f = e.new_part_name))) fp := by
  intro l
  induction l with
  | nil => intro fp hmem _; exact hmem
  | cons w l ih =>
    intro fp hmem hall
    refine ih _ (mem_eraseP_of_not hmem ?_) ?_
    · exact decide_eq_false (fun heq => (hall w (List.mem_cons_self _ _)) heq.symm)
    · exact fun w2 hw2 => hall w2 (List.mem_cons_of_mem _ hw2)

theorem nodup_foldl_eraseP :
    ∀ (l : List LogEntry) (fp : List PartInfo), fp.Nodup →
      (l.foldl (fun fp e => fp.eraseP (fun f => decide (f = e.new_part_name))) fp).Nodup := by
  intro l
  induction l with
  | nil => intro fp h; exact h
  | cons w l ih => intro fp h; exact ih _ (h.sublist (List.eraseP_sublist _))

theorem execInv_removeRange (st : QState) (range : PartInfo) (h : ExecInv st) :
    ExecInv (awaitExecutingRemoved (removePartProducingOpsInRange st range).1
      (removePartProducingOpsInRange st range).2) := by
  obtain ⟨h1, h2, h3, h4⟩ := h
  have hsymm : Symmetric (fun e₁ e₂ : LogEntry => e₁.currently_executing = true →
      e₂.currently_executing = true → e₁.new_part_name ≠ e₂.new_part_name) :=
    fun a b hab hb ha => Ne.symm (hab ha hb)
  refine ⟨?_, ?_, ?_, ?_⟩
  · rw [await_queue]
    exact h1.sublist (List.filter_sublist _)
  · rw [await_fp]
    exact nodup_foldl_eraseP _ _ h2
  · intro q hq hqex
    rw [await_queue] at hq
    have hqmem : q ∈ st.queue := List.mem_of_mem_filter hq
    have hqkeep : coveredProducer range q = false := by
      simpa using List.of_mem_filter hq
    rw [await_fp]
    refine mem_foldl_eraseP _ _ _ (h3 q hqmem hqex) ?_
    intro w hw
    have hwmem : w ∈ st.queue := List.mem_of_mem_filter hw
    have hwprop : coveredProducer range w = true ∧ w.currently_executing = true := by
      simpa using List.of_mem_filter hw
    have hne : w ≠ q := by
      intro hqe
      rw [hqe] at hwprop
      rw [hwprop.1] at hqkeep
      cases hqkeep
    exact (h1.forall hsymm) hwmem hqmem hne hwprop.2 hqex
  · rw [await_queue]
    exact h4.sublist ((List.filter_sublist _).map _)

theorem reachable_execInv (ms : Bool) (dp : List PartInfo) (st : QState)
    (h : Reachable ms dp st) : ExecInv st := by
  induction h with
  | init parts ci muts => exact execInv_initial parts ci muts
  | step hr hstep ih =>
    cases hstep with
    | insert e => exact execInv_insert _ e ih
    | select e st2 hsel => exact execInv_select _ ms dp e _ hsel ih
    | process e out he hex => exact execInv_process _ e out he hex ih
    | setActual e actual he hex hfresh =>
      exact execInv_setActual _ e actual he hex hfresh ih
    | removeRange range => exact execInv_removeRange _ range ih

/-- C4: in every reachable state of the queue, at most one queue entry is
marked "currently executing" for any given produced part name, and
`future_parts` (the set of `ExecutionGuard` registrations) never holds
two registrations of the same part name. -/
theorem future_parts_consistency (ms : Bool) (dp : List PartInfo) (st : QState)
    (h : Reachable ms dp st) :
    atMostOneExecutingPerPart st.queue = true
      ∧ nodupPartsB st.future_parts = true :=
  ⟨atMostOne_of_pairwise (reachable_execInv ms dp st h).1,
   nodupPartsB_of_nodup (reachable_execInv ms dp st h).2.1⟩

/-- C4 witness: a concrete reachable state — empty start, one entry
inserted by the log puller and then selected for execution — satisfies
both consistency checks. -/
theorem future_parts_consistency_witness :
    atMostOneExecutingPerPart
      [⟨"g-1", EntryKind.GET_PART, ⟨"p", 0, 0, 0⟩, [], 0, true, "", "", 1⟩] = true
    ∧ nodupPartsB [(⟨"p", 0, 0, 0⟩ : PartInfo)] = true :=
  future_parts_consistency false []
    ⟨[⟨"g-1", EntryKind.GET_PART, ⟨"p", 0, 0, 0⟩, [], 0, true, "", "", 1⟩],
      [⟨"p", 0, 0, 0⟩], [⟨⟨"p", 0, 0, 0⟩, false⟩], [], []⟩
    (Reachable.step
      (Reachable.step (Reachable.init [] [] [])
        (QStep.insert (initialState [] [] [])
          ⟨"g-1", EntryKind.GET_PART, ⟨"p", 0, 0, 0⟩, [], 0, false, "", "", 0⟩))
      (QStep.select
        ⟨[⟨"g-1", EntryKind.GET_PART, ⟨"p", 0, 0, 0⟩, [], 0, false, "", "", 0⟩],
          [], [⟨⟨"p", 0, 0, 0⟩, false⟩], [], []⟩
        ⟨"g-1", EntryKind.GET_PART, ⟨"p", 0, 0, 0⟩, [], 0, false, "", "", 0⟩
        ⟨[⟨"g-1", EntryKind.GET_PART, ⟨"p", 0, 0, 0⟩, [], 0, true, "", "", 1⟩],
          [⟨"p", 0, 0, 0⟩], [⟨⟨"p", 0, 0, 0⟩, false⟩], [], []⟩
        (by decide)))

/-! ## The sequence-number encoding (for C9) -/

theorem charLt_iff (a b : Char) : a < b ↔ a.toNat < b.toNat := by
  rw [Char.lt_iff_val_lt_val, UInt32.lt_def, BitVec.lt_def]
  exact Iff.rfl

theorem char_toNat_inj {a b : Char} (h : a.toNat = b.toNat) : a = b :=
  Char.ext (UInt32.eq_of_toBitVec_eq (BitVec.eq_of_toNat_eq h))

theorem digitChar_toNat (d : Nat) : (digitChar d).toNat = 48 + d % 10 := by
  have h : d % 10 < 10 := Nat.mod_lt _ (by decide)
  unfold digitChar
  have h10 : d % 10 = 0 ∨ d % 10 = 1 ∨ d % 10 = 2 ∨ d % 10 = 3 ∨ d % 10 = 4 ∨ d % 10 = 5
      ∨ d % 10 = 6 ∨ d % 10 = 7 ∨ d % 10 = 8 ∨ d % 10 = 9 := by omega
  rcases h10 with h2 | h2 | h2 | h2 | h2 | h2 | h2 | h2 | h2 | h2 <;> rw [h2] <;> decide

theorem digitChar_isDigit10 (d : Nat) : isDigit10 (digitChar d) = true := by
  simp only [isDigit10, digitChar_toNat, Bool.and_eq_true, decide_eq_true_eq]
  have : d % 10 < 10 := Nat.mod_lt _ (by decide)
  omega

theorem natDigitsAux_congr : ∀ (f₁ f₂ n : Nat), n < f₁ → n < f₂ →
    natDigitsAux f₁ n = natDigitsAux f₂ n
  | 0, _, _, h₁, _ => absurd h₁ (Nat.not_lt_zero _)
  | _ + 1, 0, _, _, h₂ => absurd h₂ (Nat.not_lt_zero _)
  | f₁ + 1, f₂ + 1, n, h₁, h₂ => by
    simp only [natDigitsAux]
    split
    · rfl
    · rename_i h10
      have hd : n / 10 < n := Nat.div_lt_self (by omega) (by omega)
      rw [natDigitsAux_congr f₁ f₂ (n / 10) (by omega) (by omega)]

theorem natDigits_unfold (n : Nat) :
    natDigits n = if n < 10 then [digitChar n]
      else natDigits (n / 10) ++ [digitChar (n % 10)] := by
  show natDigitsAux (n + 1) n = _
  simp only [natDigitsAux]
  split
  · rfl
  · rename_i h10
    rw [natDigitsAux_congr n (n / 10 + 1) (n / 10)
      (Nat.div_lt_self (by omega) (by omega)) (Nat.lt_succ_self _)]
    rfl

theorem natDigits_valid (n : Nat) : ∀ c ∈ natDigits n, isDigit10 c = true := by
  induction n using Nat.strong_induction_on with
  | _ n ih =>
    rw [natDigits_unfold]
    split
    · intro c hc
      rcases List.mem_singleton.mp hc with rfl
      exact digitChar_isDigit10 _
    · rename_i h10
      intro c hc
      rcases List.mem_append.mp hc with hc | hc
      · exact ih (n / 10) (Nat.div_lt_self (by omega) (by omega)) c hc
      · rcases List.mem_singleton.mp hc with rfl
        exact digitChar_isDigit10 _

theorem digitsValue_append_singleton : ∀ (xs : List Char) (c : Char),
    digitsValue (xs ++ [c]) = 10 * digitsValue xs + (c.toNat - 48)
  | [], c => by simp [digitsValue]
  | x :: xs, c => by
    simp only [List.cons_append, digitsValue, digitsValue_append_singleton xs c,
      List.append_eq, List.length_append, List.length_cons, List.length_nil]
    ring

theorem digitsValue_natDigits (n : Nat) : digitsValue (natDigits n) = n := by
  induction n using Nat.strong_induction_on with
  | _ n ih =>
    rw [natDigits_unfold]
    split
    · rename_i h10
      simp only [digitsValue, digitChar_toNat, List.length_nil, pow_zero, mul_one]
      omega
    · rename_i h10
      rw [digitsValue_append_singleton,
        ih (n / 10) (Nat.div_lt_self (by omega) (by omega)), digitChar_toNat]
      omega

theorem natDigits_length_le (n : Nat) : ∀ (k : Nat), 1 ≤ k → n < 10 ^ k →
    (natDigits n).length ≤ k := by
  induction n using Nat.strong_induction_on with
  | _ n ih =>
    intro k hk hn
    rw [natDigits_unfold]
    split
    · simpa using hk
    · rename_i h10
      rw [List.length_append]
      simp only [List.length_cons, List.length_nil]
      have hk2 : 2 ≤ k := by
        by_contra hcon
        have hk1 : k = 1 := by omega
        rw [hk1, pow_one] at hn
        omega
      have hdiv : n / 10 < 10 ^ (k - 1) := by
        rw [Nat.div_lt_iff_lt_mul (by omega)]
        calc n < 10 ^ k := hn
          _ = 10 ^ (k - 1) * 10 := by
              rw [← Nat.pow_succ]
              congr 1
              omega
      have := ih (n / 10) (Nat.div_lt_self (by omega) (by omega)) (k - 1) (by omega) hdiv
      omega

theorem digitsValue_lt : ∀ (xs : List Char), (∀ c ∈ xs, isDigit10 c = true) →
    digitsValue xs < 10 ^ xs.length
  | [], _ => by simp [digitsValue]
  | c :: xs, h => by
    have hc := h c (List.mem_cons_self _ _)
    simp only [isDigit10, Bool.and_eq_true, decide_eq_true_eq] at hc
    have ih := digitsValue_lt xs (fun c2 hc2 => h c2 (List.mem_cons_of_mem _ hc2))
    simp only [digitsValue, List.length_cons]
    calc (c.toNat - 48) * 10 ^ xs.length + digitsValue xs
        < (c.toNat - 48) * 10 ^ xs.length + 10 ^ xs.length :=
          Nat.add_lt_add_left ih _
      _ = (c.toNat - 48 + 1) * 10 ^ xs.length := by ring
      _ ≤ 10 * 10 ^ xs.length := Nat.mul_le_mul_right _ (by omega)
      _ = 10 ^ (xs.length + 1) := by ring

theorem digitsValue_replicate_zero : ∀ (j : Nat) (ds : List Char),
    digitsValue (List.replicate j '0' ++ ds) = digitsValue ds
  | 0, _ => rfl
  | j + 1, ds => by
    show digitsValue ('0' :: (List.replicate j '0' ++ ds)) = digitsValue ds
    have h0 : ('0').toNat - 48 = 0 := by decide
    simp only [digitsValue, h0, digitsValue_replicate_zero j ds, zero_mul, zero_add]

theorem lex_iff_value : ∀ (xs ys : List Char), xs.length = ys.length →
    (∀ c ∈ xs, isDigit10 c = true) → (∀ c ∈ ys, isDigit10 c = true) →
    (List.Lex (· < ·) xs ys ↔ digitsValue xs < digitsValue ys)
  | [], [], _, _, _ => by
    constructor
    · intro h; cases h
    · intro h; simp [digitsValue] at h
  | [], _ :: _, hlen, _, _ => by simp at hlen
  | _ :: _, [], hlen, _, _ => by simp at hlen
  | x :: xs, y :: ys, hlen, hx, hy => by
    simp only [List.length_cons, Nat.succ.injEq] at hlen
    have hxd := hx x (List.mem_cons_self _ _)
    have hyd := hy y (List.mem_cons_self _ _)
    simp only [isDigit10, Bool.and_eq_true, decide_eq_true_eq] at hxd hyd
    have hxs : ∀ c ∈ xs, isDigit10 c = true :=
      fun c hc => hx c (List.mem_cons_of_mem _ hc)
    have hys : ∀ c ∈ ys, isDigit10 c = true :=
      fun c hc => hy c (List.mem_cons_of_mem _ hc)
    have ih := lex_iff_value xs ys hlen hxs hys
    have hvx : digitsValue xs < 10 ^ xs.length := digitsValue_lt xs hxs
    have hvy : digitsValue ys < 10 ^ ys.length := digitsValue_lt ys hys
    simp only [digitsValue]
    constructor
    · intro h
      cases h with
      | cons h2 =>
        rw [hlen]
        exact Nat.add_lt_add_left (ih.mp h2) _
      | rel h2 =>
        have hxy : x.toNat < y.toNat := (charLt_iff x y).mp h2
        calc (x.toNat - 48) * 10 ^ xs.length + digitsValue xs
            < (x.toNat - 48) * 10 ^ xs.length + 10 ^ xs.length :=
              Nat.add_lt_add_left hvx _
          _ = (x.toNat - 48 + 1) * 10 ^ xs.length := by ring
          _ ≤ (y.toNat - 48) * 10 ^ xs.length :=
              Nat.mul_le_mul_right _ (by omega)
          _ = (y.toNat - 48) * 10 ^ ys.length := by rw [hlen]
          _ ≤ (y.toNat - 48) * 10 ^ ys.length + digitsValue ys := Nat.le_add_right _ _
    · intro hv
      rcases Nat.lt_trichotomy x.toNat y.toNat with h2 | h2 | h2
      · exact List.Lex.rel ((charLt_iff x y).mpr h2)
      · have hxy : x = y := char_toNat_inj h2
        subst hxy
        apply List.Lex.cons
        apply ih.mpr
        rw [hlen] at hv
        exact Nat.lt_of_add_lt_add_left hv
      · exfalso
        have hge : (y.toNat - 48) * 10 ^ ys.length + digitsValue ys
            < (x.toNat - 48) * 10 ^ xs.length + digitsValue xs :=
          calc (y.toNat - 48) * 10 ^ ys.length + digitsValue ys
              < (y.toNat - 48) * 10 ^ ys.length + 10 ^ ys.length :=
                Nat.add_lt_add_left hvy _
            _ = (y.toNat - 48 + 1) * 10 ^ ys.length := by ring
            _ ≤ (x.toNat - 48) * 10 ^ ys.length :=
                Nat.mul_le_mul_right _ (by omega)
            _ = (x.toNat - 48) * 10 ^ xs.length := by rw [hlen]
            _ ≤ (x.toNat - 48) * 10 ^ xs.length + digitsValue xs := Nat.le_add_right _ _
        exact absurd hv (Nat.lt_asymm hge)

/-- C9, counterexample: the claim as stated fails for negative sequence
numbers.  -5 < -4 numerically, but the signed-magnitude encoding gives
padIndex (-5) = "00000000-5" and padIndex (-4) = "00000000-4", and
"00000000-4" precedes "00000000-5" lexicographically — the order is
reversed. -/
theorem padIndex_order_counterexample :
    ¬ ((-5 : Int) < -4 ↔ padIndex (-5) < padIndex (-4)) := by
  intro h
  have h2 := h.mp (by norm_num)
  rw [String.lt_iff_toList_lt] at h2
  exact absurd h2 (by decide)

/-- C9 (amended): for nonnegative sequence numbers within the fixed
width (below 10^10), numeric order and the lexicographic order of the
zero-padded encodings coincide. -/
theorem padIndex_order (a b : Int) (ha : 0 ≤ a) (hb : 0 ≤ b)
    (ha10 : a < 10 ^ 10) (hb10 : b < 10 ^ 10) :
    a < b ↔ padIndex a < padIndex b := by
  have hvalid : ∀ (z : Int),
      ∀ c ∈ List.replicate (10 - (natDigits z.toNat).length) '0' ++ natDigits z.toNat,
        isDigit10 c = true := by
    intro z c hc
    rcases List.mem_append.mp hc with hc | hc
    · rw [List.eq_of_mem_replicate hc]
      decide
    · exact natDigits_valid z.toNat c hc
  have hlen : ∀ (z : Int), 0 ≤ z → z < 10 ^ 10 →
      (List.replicate (10 - (natDigits z.toNat).length) '0'
        ++ natDigits z.toNat).length = 10 := by
    intro z hz hz10
    have hpow : (10 : Int) ^ 10 = 10000000000 := by norm_num
    have hpown : (10 : Nat) ^ 10 = 10000000000 := by norm_num
    have hzn : z.toNat < 10 ^ 10 := by omega
    have hnl : (natDigits z.toNat).length ≤ 10 :=
      natDigits_length_le z.toNat 10 (by omega) hzn
    rw [List.length_append, List.length_replicate]
    omega
  have hval : ∀ (z : Int),
      digitsValue (List.replicate (10 - (natDigits z.toNat).length) '0'
        ++ natDigits z.toNat) = z.toNat := by
    intro z
    rw [digitsValue_replicate_zero, digitsValue_natDigits]
  have hpada : (padIndex a).toList
      = List.replicate (10 - (natDigits a.toNat).length) '0' ++ natDigits a.toNat := by
    unfold padIndex
    rw [if_neg (not_lt.mpr ha)]
    rfl
  have hpadb : (padIndex b).toList
      = List.replicate (10 - (natDigits b.toNat).length) '0' ++ natDigits b.toNat := by
    unfold padIndex
    rw [if_neg (not_lt.mpr hb)]
    rfl
  rw [String.lt_iff_toList_lt, hpada, hpadb]
  have hlex := lex_iff_value _ _ ((hlen a ha ha10).trans (hlen b hb hb10).symm)
    (hvalid a) (hvalid b)
  rw [hval, hval] at hlex
  have hab : a < b ↔ a.toNat < b.toNat := by omega
  exact hab.trans hlex.symm

/-- C9 witness: 3 < 7 and padIndex 3 = "0000000003" precedes
padIndex 7 = "0000000007". -/
theorem padIndex_order_witness :
    (0 : Int) ≤ 3 ∧ (0 : Int) ≤ 7 ∧ (3 : Int) < 10 ^ 10 ∧ (7 : Int) < 10 ^ 10
    ∧ ((3 : Int) < 7 ↔ padIndex 3 < padIndex 7) :=
  ⟨by norm_num, by norm_num, by norm_num, by norm_num,
   padIndex_order 3 7 (by norm_num) (by norm_num) (by norm_num) (by norm_num)⟩

end RMTQueue
